import Mathlib

/-!
Verification of the token-tag alignment utility and the byte-pair-encoding
vocabulary construction described by this repository's notebooks.

The central piece of code is the notebook function
`get_aligned_tokens_and_tags(tokeniser, text_tokens, text_tags, no_tag=0)`,
which converts a batch of word-tokenised sentences with one tag per word
into subword-token index sequences with a token-presence mask, aligned
tags, and a tag-carrier mask, padded to a common length across the batch.

The external subword tokeniser is modelled as a record carrying the
function `word -> input_ids` (including the leading CLS and trailing SEP
marker ids, as the real tokeniser returns them) together with the reserved
ids `cls_token_id`, `sep_token_id`, `pad_token_id`.  Tags are natural
numbers (the notebook passes indices into a tag set).  The Python
function's only failure path, `max()` over an empty sequence raising
`ValueError` when the batch holds zero sentences, is modelled by returning
`none`.
-/

namespace NB

/-- The external subword tokeniser interface used by the notebook:
`tok w` models `tokeniser(w)['input_ids']`, the full id sequence for the
single word `w` including the CLS id at the front and the SEP id at the
back, plus the reserved marker ids. -/
structure Tokeniser where
  tok : String → List Nat
  cls_token_id : Nat
  sep_token_id : Nat
  pad_token_id : Nat

/-- `tokeniser(word)['input_ids'][1:-1]` — the subword ids of one word with
the first and last elements (the per-word CLS and SEP marker ids)
stripped.  Python's `[1:-1]` on a list of length at most 2 is empty. -/
def wordPieces (tk : Tokeniser) (word : String) : List Nat :=
  ((tk.tok word).drop 1).dropLast

/-- The three per-sentence accumulator lists built by the notebook loop:
`indexes`, `tag_mask` and `aligned_tags` are appended to in lockstep. -/
structure SentAcc where
  indexes : List Nat
  tag_mask : List Bool
  aligned_tags : List Nat
  deriving Repr, DecidableEq

/-- The inner loop `for (i, index) in enumerate(tokeniser(word)['input_ids'][1:-1])`:
each subword id is appended to `indexes`; the first (`i == 0`) gets
`True`/`tag`, every later one gets `False`/`no_tag`. -/
def innerLoop (no_tag tag : Nat) : Nat → List Nat → SentAcc → SentAcc
  | _, [], acc => acc
  | i, index :: rest, acc =>
      if i = 0 then
        innerLoop no_tag tag (i + 1) rest
          ⟨acc.indexes ++ [index], acc.tag_mask ++ [true], acc.aligned_tags ++ [tag]⟩
      else
        innerLoop no_tag tag (i + 1) rest
          ⟨acc.indexes ++ [index], acc.tag_mask ++ [false], acc.aligned_tags ++ [no_tag]⟩

/-- The outer loop `for (tag, word) in zip(tags, tokens)`. -/
def outerLoop (tk : Tokeniser) (no_tag : Nat) : List (Nat × String) → SentAcc → SentAcc
  | [], acc => acc
  | (tag, word) :: rest, acc =>
      outerLoop tk no_tag rest (innerLoop no_tag tag 0 (wordPieces tk word) acc)

/-- One sentence of the notebook function: start from
`indexes = [cls_token_id]`, `tag_mask = [False]`, `aligned_tags = [no_tag]`,
run the word loop over `zip(tags, tokens)`, then append the SEP id with
`False`/`no_tag`. -/
def processSentence (tk : Tokeniser) (no_tag : Nat)
    (tokens : List String) (tags : List Nat) : SentAcc :=
  let acc := outerLoop tk no_tag (tags.zip tokens)
    ⟨[tk.cls_token_id], [false], [no_tag]⟩
  ⟨acc.indexes ++ [tk.sep_token_id], acc.tag_mask ++ [false],
    acc.aligned_tags ++ [no_tag]⟩

/-- The parallel lists `text_indexes`, `text_tag_masks`, `text_aligned_tags`
after the first batch loop `for (tokens, tags) in zip(text_tokens, text_tags)`,
one `SentAcc` per zipped sentence. -/
def preSentences (tk : Tokeniser) (no_tag : Nat)
    (text_tokens : List (List String)) (text_tags : List (List Nat)) : List SentAcc :=
  (text_tokens.zip text_tags).map fun p => processSentence tk no_tag p.1 p.2

/-- `max(len(indexes) for indexes in text_indexes)` over a nonempty batch:
for natural numbers, folding `max` from `0` computes exactly that maximum. -/
def maxLen (lens : List Nat) : Nat :=
  lens.foldl max 0

/-- The batch maximum pre-padding aligned length. -/
def batchMaxLen (tk : Tokeniser) (no_tag : Nat)
    (text_tokens : List (List String)) (text_tags : List (List Nat)) : Nat :=
  maxLen ((preSentences tk no_tag text_tokens text_tags).map fun a => a.indexes.length)

/-- The four return values of `get_aligned_tokens_and_tags`, in the order
the notebook returns them (as lists rather than tensors). -/
structure AlignedBatch where
  text_indexes : List (List Nat)
  text_token_masks : List (List Nat)
  text_aligned_tags : List (List Nat)
  text_tag_masks : List (List Bool)
  deriving Repr, DecidableEq

/-- The notebook function `get_aligned_tokens_and_tags`.  Per sentence it
builds `SentAcc` via `processSentence`; the padding loop then computes
`max_len`, records `[1]*num_tokens + [0]*(max_len-num_tokens)` as the
token-presence mask, and right-pads indexes with `pad_token_id`,
`tag_mask` with `False` and `aligned_tags` with `no_tag`.  On a batch with
zero sentences Python's `max()` raises `ValueError`; that path is `none`. -/
def get_aligned_tokens_and_tags (tk : Tokeniser)
    (text_tokens : List (List String)) (text_tags : List (List Nat))
    (no_tag : Nat) : Option AlignedBatch :=
  match preSentences tk no_tag text_tokens text_tags with
  | [] => none
  | accs@(_ :: _) =>
    let max_len := maxLen (accs.map fun a => a.indexes.length)
    some
      ⟨accs.map fun a =>
          a.indexes ++ List.replicate (max_len - a.indexes.length) tk.pad_token_id,
        accs.map fun a =>
          List.replicate a.indexes.length 1 ++
            List.replicate (max_len - a.indexes.length) 0,
        accs.map fun a =>
          a.aligned_tags ++ List.replicate (max_len - a.indexes.length) no_tag,
        accs.map fun a =>
          a.tag_mask ++ List.replicate (max_len - a.indexes.length) false⟩

/-- Per-word tag-carrier mask contribution: the first subword gets `True`,
the rest `False`; a word with no subword pieces contributes nothing. -/
def wordMask : List Nat → List Bool
  | [] => []
  | _ :: rest => true :: rest.map fun _ => false

/-- Per-word aligned-tag contribution: the first subword carries the word's
tag, the rest carry `no_tag`; an empty piece list contributes nothing. -/
def wordTags (tag no_tag : Nat) : List Nat → List Nat
  | [] => []
  | _ :: rest => tag :: rest.map fun _ => no_tag

/-- The padding contract of the batch function, stated against the
pre-padding per-sentence results: some output exists, and for every
sentence index `i` of the zipped batch, writing `a` for the sentence's
pre-padding result and `m` for the batch maximum pre-padding length, the
pre-padding length is at most `m`, the token-id row is `a.indexes` padded
with the pad id, the token-presence row is `length a.indexes` ones
followed by zeros, the aligned-tag row is `a.aligned_tags` padded with
`no_tag`, the tag-carrier row is `a.tag_mask` padded with `False`, and
all four rows have length exactly `m`. -/
def paddingSpec (tk : Tokeniser) (no_tag : Nat)
    (text_tokens : List (List String)) (text_tags : List (List Nat)) : Prop :=
  ∃ out, get_aligned_tokens_and_tags tk text_tokens text_tags no_tag = some out ∧
    ∀ i, i < (text_tokens.zip text_tags).length →
      let a := (preSentences tk no_tag text_tokens text_tags).getD i ⟨[], [], []⟩
      let m := batchMaxLen tk no_tag text_tokens text_tags
      a.indexes.length ≤ m ∧
      out.text_indexes.getD i [] =
        a.indexes ++ List.replicate (m - a.indexes.length) tk.pad_token_id ∧
      out.text_token_masks.getD i [] =
        List.replicate a.indexes.length 1 ++ List.replicate (m - a.indexes.length) 0 ∧
      out.text_aligned_tags.getD i [] =
        a.aligned_tags ++ List.replicate (m - a.indexes.length) no_tag ∧
      out.text_tag_masks.getD i [] =
        a.tag_mask ++ List.replicate (m - a.indexes.length) false ∧
      (out.text_indexes.getD i []).length = m ∧
      (out.text_token_masks.getD i []).length = m ∧
      (out.text_aligned_tags.getD i []).length = m ∧
      (out.text_tag_masks.getD i []).length = m

/-! ### Byte-pair-encoding vocabulary construction

Modelled from the spec: the notebooks describe the BPE algorithm in prose
only (corpus of whole words; start from single characters with the first
character of each word marked word-initial and the rest continuation;
repeatedly replace the most frequent adjacent pair, tie-broken by the
first-encountered left-to-right word-order scan, with its concatenation,
which inherits the marking of its first element and is added to the
vocabulary; stop at the target vocabulary size or when no pair occurs
more than once).  No executable BPE code exists in the repository, so the
definitions below follow the spec's words. -/

/-- A BPE token: its character content together with its marking —
`true` for word-initial, `false` for continuation.  Tokens with the same
characters but different markings are distinct vocabulary entries. -/
abbrev BToken := List Char × Bool

/-- A corpus word as a sequence of current tokens. -/
abbrev BWord := List BToken

/-- The character content of a contiguous token run, concatenated. -/
def runStr (R : BWord) : List Char :=
  (R.map fun t => t.1).flatten

/-- The marking of a contiguous token run: the marking of its first
token (`true` as an irrelevant default for the empty run). -/
def runMark (R : BWord) : Bool :=
  (R.headD ([], true)).2

/-- Modelled from the spec: a word's initial representation is its
sequence of individual characters, the first marked word-initial and the
rest continuation. -/
def initBWord (s : List Char) : BWord :=
  match s with
  | [] => []
  | c :: cs => ([c], true) :: cs.map fun d => ([d], false)

/-- The adjacent token pairs of one word, in left-to-right order (pairs
never span two words). -/
def adjPairs (w : BWord) : List (BToken × BToken) :=
  w.zip w.tail

/-- Modelled from the spec: select the merge pair — the most frequent
adjacent pair across the corpus, tie-broken as the first-encountered pair
in a left-to-right, word-order scan; `none` when no pair occurs more than
once (the termination condition). -/
def selectPair (corpus : List BWord) : Option (BToken × BToken) :=
  let ps := corpus.flatMap adjPairs
  let maxCount := (ps.map fun p => ps.count p).foldl max 0
  if maxCount ≤ 1 then none
  else ps.find? fun p => ps.count p = maxCount

/-- Modelled from the spec: replace all occurrences of the adjacent pair
`(u, v)` in one word by the merged token `m`, scanning left to right. -/
def replacePair (u v m : BToken) : BWord → BWord
  | [] => []
  | [x] => [x]
  | x :: y :: rest =>
      if x = u ∧ y = v then m :: replacePair u v m rest
      else x :: replacePair u v m (y :: rest)

/-- Add a token to the vocabulary, which the spec describes as a set of
distinct entries: adding an already-present entry changes nothing. -/
def addBToken (vocab : List BToken) (t : BToken) : List BToken :=
  if t ∈ vocab then vocab else vocab ++ [t]

/-- The construction state: the corpus as token sequences plus the
vocabulary built so far. -/
structure BPEState where
  corpus : List BWord
  vocab : List BToken
  deriving Repr, DecidableEq

/-- One merge step: select the pair, concatenate it into the merged token
(inheriting the word-initial/continuation marking of its first element),
replace all occurrences in the corpus, and add the merged token to the
vocabulary; `none` when no pair occurs more than once. -/
def mergeStep (st : BPEState) : Option BPEState :=
  match selectPair st.corpus with
  | none => none
  | some (u, v) =>
      some ⟨st.corpus.map (replacePair u v (u.1 ++ v.1, u.2)),
        addBToken st.vocab (u.1 ++ v.1, u.2)⟩

/-- Modelled from the spec: the initial vocabulary holds every distinct
character token (in both markings as observed) of the initial corpus. -/
def initBVocab (ws : List (List Char)) : List BToken :=
  ((ws.map initBWord).flatMap id).dedup

/-- The initial construction state for a corpus of whole words. -/
def initBState (ws : List (List Char)) : BPEState :=
  ⟨ws.map initBWord, initBVocab ws⟩

/-- The list of construction states visited, in order: merge while the
vocabulary is below the target size and some pair occurs more than once
(`fuel` bounds the iteration count of this model). -/
def bpeRun (target : Nat) : Nat → BPEState → List BPEState
  | 0, st => [st]
  | fuel + 1, st =>
      if st.vocab.length < target then
        match mergeStep st with
        | none => [st]
        | some st' => st :: bpeRun target fuel st'
      else [st]

/-- The greedy left-to-right pair-replacement relation between a token
sequence and its image: each step either replaces a leading `(u, v)` pair
by `m` or copies a leading token that does not begin a `(u, v)` pair.
`replacePair` realises this relation, and restricting a derivation to any
contiguous sub-run of the image yields a derivation again. -/
inductive GRel (u v m : BToken) : BWord → BWord → Prop
  | nil : GRel u v m [] []
  | repl {R R' : BWord} : GRel u v m R R' → GRel u v m (u :: v :: R) (m :: R')
  | copy {x : BToken} {R R' : BWord} :
      ¬(x = u ∧ R.head? = some v) → GRel u v m R R' → GRel u v m (x :: R) (x :: R')

/-- Coherence of a corpus: any two nonempty contiguous token runs (in any
words) with the same concatenated characters and the same leading marking
are the same token sequence. -/
def Coherent (corpus : List BWord) : Prop :=
  ∀ w1 ∈ corpus, ∀ w2 ∈ corpus, ∀ pre1 R1 post1 pre2 R2 post2,
    w1 = pre1 ++ R1 ++ post1 → w2 = pre2 ++ R2 ++ post2 →
    R1 ≠ [] → R2 ≠ [] → runStr R1 = runStr R2 → runMark R1 = runMark R2 → R1 = R2

/-- No contiguous run of two or more tokens in the corpus concatenates to
the content and marking of the entry `e`. -/
def NoRunOf (corpus : List BWord) (e : BToken) : Prop :=
  ∀ w ∈ corpus, ∀ pre R post, w = pre ++ R ++ post → 2 ≤ R.length →
    ¬(runStr R = e.1 ∧ runMark R = e.2)

/-- All tokens of a list are marked continuation. -/
def AllCont (l : BWord) : Prop :=
  ∀ t ∈ l, t.2 = false

/-- The construction invariant: the corpus is coherent, no vocabulary
entry of two or more characters occurs as the concatenation of a
multi-token run, corpus tokens are nonempty, non-leading corpus tokens
are continuation-marked, and the vocabulary holds no duplicates. -/
structure BPEInv (st : BPEState) : Prop where
  coh : Coherent st.corpus
  nr : ∀ e ∈ st.vocab, 2 ≤ e.1.length → NoRunOf st.corpus e
  tokne : ∀ w ∈ st.corpus, ∀ t ∈ w, t.1 ≠ []
  mark : ∀ w ∈ st.corpus, AllCont w.tail
  nodup : st.vocab.Nodup

/-! ### A store model of the aligner for the frame property

Python lists are mutable heap objects.  To state that
`get_aligned_tokens_and_tags` leaves its inputs unchanged, the function is
embedded a second time against an explicit store: every list is a store
cell addressed by a natural number, `append`/`extend` mutate a cell in
place, and list literals allocate fresh cells at the end of the store.
The input batch lives at two given addresses holding references to the
per-sentence word and tag lists; the embedding reads them through the
store and performs exactly the writes the notebook code performs. -/

/-- A Python value stored in a list cell: an integer id/tag/mask bit, a
boolean, a word, or a reference to another list. -/
inductive PVal where
  | n : Nat → PVal
  | b : Bool → PVal
  | s : String → PVal
  | r : Nat → PVal
  deriving Repr, DecidableEq

/-- The heap: one Python list per address (the address is the index). -/
abbrev Store := List (List PVal)

/-- Read the list at an address (empty for a dangling address). -/
def deref (σ : Store) (a : Nat) : List PVal :=
  σ.getD a []

/-- Allocate a fresh list, returning the new store and its address. -/
def alloc (σ : Store) (l : List PVal) : Store × Nat :=
  (σ ++ [l], σ.length)

/-- `lst.append(x)` at address `a`. -/
def pushAt (σ : Store) (a : Nat) (x : PVal) : Store :=
  σ.set a (deref σ a ++ [x])

/-- `lst.extend(xs)` at address `a`. -/
def extendAt (σ : Store) (a : Nat) (xs : List PVal) : Store :=
  σ.set a (deref σ a ++ xs)

/-- The references held in a list, in order. -/
def derefRefs (σ : Store) (a : Nat) : List Nat :=
  (deref σ a).filterMap fun x => match x with | .r c => some c | _ => none

/-- The words held in a list, in order. -/
def decodeStrs (l : List PVal) : List String :=
  l.filterMap fun x => match x with | .s w => some w | _ => none

/-- The tags held in a list, in order. -/
def decodeNats (l : List PVal) : List Nat :=
  l.filterMap fun x => match x with | .n k => some k | _ => none

/-- Store version of the subword loop: append each subword id to the
`indexes` cell `aI`, `True`/`tag` for `i == 0` and `False`/`no_tag`
otherwise to the `tag_mask` cell `aM` and `aligned_tags` cell `aT`. -/
def innerLoopS (no_tag tag : Nat) : List Nat → Nat → Nat → Nat → Nat → Store → Store
  | [], _, _, _, _, σ => σ
  | index :: rest, i, aI, aM, aT, σ =>
      let σ := pushAt σ aI (.n index)
      let σ :=
        if i = 0 then pushAt (pushAt σ aM (.b true)) aT (.n tag)
        else pushAt (pushAt σ aM (.b false)) aT (.n no_tag)
      innerLoopS no_tag tag rest (i + 1) aI aM aT σ

/-- Store version of the word loop `for (tag, word) in zip(tags, tokens)`. -/
def wordLoopS (tk : Tokeniser) (no_tag : Nat) :
    List (Nat × String) → Nat → Nat → Nat → Store → Store
  | [], _, _, _, σ => σ
  | (tag, word) :: rest, aI, aM, aT, σ =>
      wordLoopS tk no_tag rest aI aM aT
        (innerLoopS no_tag tag (wordPieces tk word) 0 aI aM aT σ)

/-- The body of the store sentence loop for one sentence at word-list
address `aw` and tag-list address `ata`: allocate the three fresh
per-sentence lists (`indexes = [CLS]`, `tag_mask = [False]`,
`aligned_tags = [no_tag]`, at the three next addresses `σ.length`,
`σ.length + 1`, `σ.length + 2`), run the word loop on the words and tags
read from the store, append the SEP entries, and append references to
the three fresh lists to the batch cells `aTI`, `aTA`, `aTM`. -/
def sentenceBodyS (tk : Tokeniser) (no_tag : Nat) (aw ata aTI aTA aTM : Nat)
    (σ : Store) : Store :=
  pushAt (pushAt (pushAt (pushAt (pushAt (pushAt
    (wordLoopS tk no_tag
      ((decodeNats (deref (σ ++ [[PVal.n tk.cls_token_id], [PVal.b false],
          [PVal.n no_tag]]) ata)).zip
        (decodeStrs (deref (σ ++ [[PVal.n tk.cls_token_id], [PVal.b false],
          [PVal.n no_tag]]) aw)))
      σ.length (σ.length + 1) (σ.length + 2)
      (σ ++ [[PVal.n tk.cls_token_id], [PVal.b false], [PVal.n no_tag]]))
    σ.length (.n tk.sep_token_id))
    (σ.length + 1) (.b false))
    (σ.length + 2) (.n no_tag))
    aTI (.r σ.length))
    aTA (.r (σ.length + 2)))
    aTM (.r (σ.length + 1))

/-- Store version of the sentence loop over the zipped pairs of input
sentence addresses. -/
def sentenceLoopS (tk : Tokeniser) (no_tag : Nat) :
    List (Nat × Nat) → Nat → Nat → Nat → Store → Store
  | [], _, _, _, σ => σ
  | (aw, ata) :: rest, aTI, aTA, aTM, σ =>
      sentenceLoopS tk no_tag rest aTI aTA aTM
        (sentenceBodyS tk no_tag aw ata aTI aTA aTM σ)

/-- The body of the store padding loop for one sentence row (addresses of
its `indexes`, `tag_mask` and `aligned_tags` lists): allocate the
token-presence mask as a fresh list at address `σ.length`, append its
reference to the batch cell `aTTM`, and extend the three per-sentence
lists in place. -/
def padBodyS (tk : Tokeniser) (no_tag max_len aI aM aT aTTM : Nat)
    (σ : Store) : Store :=
  extendAt (extendAt (extendAt
    (pushAt (σ ++ [List.replicate (deref σ aI).length (PVal.n 1) ++
      List.replicate (max_len - (deref σ aI).length) (PVal.n 0)])
      aTTM (.r σ.length))
    aI (List.replicate (max_len - (deref σ aI).length) (.n tk.pad_token_id)))
    aM (List.replicate (max_len - (deref σ aI).length) (.b false)))
    aT (List.replicate (max_len - (deref σ aI).length) (.n no_tag))

/-- Store version of the padding loop. -/
def padLoopS (tk : Tokeniser) (no_tag max_len : Nat) :
    List (Nat × Nat × Nat) → Nat → Store → Store
  | [], _, σ => σ
  | (aI, aM, aT) :: rest, aTTM, σ =>
      padLoopS tk no_tag max_len rest aTTM
        (padBodyS tk no_tag max_len aI aM aT aTTM σ)

/-- The store after the three batch-list allocations (`text_indexes`,
`text_aligned_tags`, `text_tag_masks` at addresses `σ.length`,
`σ.length + 1`, `σ.length + 2`) and the sentence loop. -/
def alignStoreMid (tk : Tokeniser) (no_tag aToks aTags : Nat) (σ : Store) : Store :=
  sentenceLoopS tk no_tag
    ((derefRefs (σ ++ [[], [], []]) aToks).zip (derefRefs (σ ++ [[], [], []]) aTags))
    σ.length (σ.length + 1) (σ.length + 2) (σ ++ [[], [], []])

/-- Store version of `get_aligned_tokens_and_tags`: the input batch lives
at addresses `aToks` (references to per-sentence word lists) and `aTags`
(references to per-sentence tag lists).  Returns the final store and, for
a nonempty zipped batch, the addresses of the four result lists (`none`
models the `ValueError` of `max()` on the empty batch).  The
`text_token_masks` cell is allocated at the address
`(alignStoreMid ...).length` just before the padding loop. -/
def get_alignedS (tk : Tokeniser) (aToks aTags no_tag : Nat) (σ : Store) :
    Store × Option (Nat × Nat × Nat × Nat) :=
  match derefRefs (alignStoreMid tk no_tag aToks aTags σ) σ.length with
  | [] => (alignStoreMid tk no_tag aToks aTags σ, none)
  | _ :: _ =>
      (padLoopS tk no_tag
        (maxLen ((derefRefs (alignStoreMid tk no_tag aToks aTags σ) σ.length).map
          fun a => (deref (alignStoreMid tk no_tag aToks aTags σ) a).length))
        ((derefRefs (alignStoreMid tk no_tag aToks aTags σ ++ [[]]) σ.length).zip
          ((derefRefs (alignStoreMid tk no_tag aToks aTags σ ++ [[]]) (σ.length + 2)).zip
            (derefRefs (alignStoreMid tk no_tag aToks aTags σ ++ [[]]) (σ.length + 1))))
        (alignStoreMid tk no_tag aToks aTags σ).length
        (alignStoreMid tk no_tag aToks aTags σ ++ [[]]),
        some (σ.length, (alignStoreMid tk no_tag aToks aTags σ).length,
          σ.length + 1, σ.length + 2))

/-- `σ` extends `σ₀`: it is at least as long and agrees with it on every
address of `σ₀`. -/
def StoreExt (σ₀ σ : Store) : Prop :=
  σ₀.length ≤ σ.length ∧ ∀ a, a < σ₀.length → deref σ a = deref σ₀ a

/-- Every reference among these values points at or above the watermark `k`. -/
def RefsGE (k : Nat) (l : List PVal) : Prop :=
  ∀ c, PVal.r c ∈ l → k ≤ c

/-- A concrete tokeniser for the notebook's running example, using the
real BERT ids of the words of `"I don't like it ."`: `"don't"` splits into
three subwords, every other word into one; the word `"zz"` is given an
empty subword list (its id sequence is just the CLS and SEP markers),
which exercises the zero-subword edge case. -/
def demoTok : Tokeniser where
  tok w :=
    101 ::
      (if w = "I" then [146]
        else if w = "don't" then [1274, 112, 189]
        else if w = "like" then [1176]
        else if w = "it" then [1122]
        else if w = "." then [119]
        else if w = "zz" then []
        else [100]) ++ [102]
  cls_token_id := 101
  sep_token_id := 102
  pad_token_id := 0

end NB

namespace NB

/-! ### Structural lemmas about the alignment loops -/

theorem innerLoop_pos (no_tag tag : Nat) :
    ∀ (rest : List Nat) (i : Nat) (acc : SentAcc),
      innerLoop no_tag tag (i + 1) rest acc =
        ⟨acc.indexes ++ rest, acc.tag_mask ++ rest.map fun _ => false,
          acc.aligned_tags ++ rest.map fun _ => no_tag⟩ := by
  intro rest
  induction rest with
  | nil => intro i acc; simp [innerLoop]
  | cons r rs ih =>
      intro i acc
      simp only [innerLoop, Nat.succ_ne_zero, if_false]
      rw [ih]
      simp [List.append_assoc]

theorem innerLoop_zero (no_tag tag : Nat) (pieces : List Nat) (acc : SentAcc) :
    innerLoop no_tag tag 0 pieces acc =
      ⟨acc.indexes ++ pieces, acc.tag_mask ++ wordMask pieces,
        acc.aligned_tags ++ wordTags tag no_tag pieces⟩ := by
  cases pieces with
  | nil => simp [innerLoop, wordMask, wordTags]
  | cons p rest =>
      simp only [innerLoop, if_pos rfl]
      rw [show (0 + 1) = 0 + 1 from rfl, innerLoop_pos]
      simp [wordMask, wordTags, List.append_assoc]

theorem outerLoop_eq (tk : Tokeniser) (no_tag : Nat) :
    ∀ (pairs : List (Nat × String)) (acc : SentAcc),
      outerLoop tk no_tag pairs acc =
        ⟨acc.indexes ++ pairs.flatMap fun p => wordPieces tk p.2,
          acc.tag_mask ++ pairs.flatMap fun p => wordMask (wordPieces tk p.2),
          acc.aligned_tags ++ pairs.flatMap fun p => wordTags p.1 no_tag (wordPieces tk p.2)⟩ := by
  intro pairs
  induction pairs with
  | nil => intro acc; simp [outerLoop]
  | cons p ps ih =>
      intro acc
      obtain ⟨tag, word⟩ := p
      simp only [outerLoop]
      rw [innerLoop_zero, ih]
      simp [List.append_assoc]

theorem processSentence_eq (tk : Tokeniser) (no_tag : Nat)
    (tokens : List String) (tags : List Nat) :
    processSentence tk no_tag tokens tags =
      ⟨tk.cls_token_id :: ((tags.zip tokens).flatMap fun p => wordPieces tk p.2) ++ [tk.sep_token_id],
        false :: ((tags.zip tokens).flatMap fun p => wordMask (wordPieces tk p.2)) ++ [false],
        no_tag :: ((tags.zip tokens).flatMap fun p => wordTags p.1 no_tag (wordPieces tk p.2)) ++ [no_tag]⟩ := by
  simp [processSentence, outerLoop_eq]

theorem wordMask_length (l : List Nat) : (wordMask l).length = l.length := by
  cases l <;> simp [wordMask]

theorem wordTags_length (tag no_tag : Nat) (l : List Nat) :
    (wordTags tag no_tag l).length = l.length := by
  cases l <;> simp [wordTags]

theorem flatMask_length (tk : Tokeniser) (pairs : List (Nat × String)) :
    (pairs.flatMap fun p => wordMask (wordPieces tk p.2)).length =
      (pairs.flatMap fun p => wordPieces tk p.2).length := by
  induction pairs with
  | nil => simp
  | cons p ps ih => simp [wordMask_length, ih]

theorem flatTags_length (tk : Tokeniser) (no_tag : Nat) (pairs : List (Nat × String)) :
    (pairs.flatMap fun p => wordTags p.1 no_tag (wordPieces tk p.2)).length =
      (pairs.flatMap fun p => wordPieces tk p.2).length := by
  induction pairs with
  | nil => simp
  | cons p ps ih => simp [wordTags_length, ih]

theorem sentAcc_lockstep (tk : Tokeniser) (no_tag : Nat)
    (tokens : List String) (tags : List Nat) :
    (processSentence tk no_tag tokens tags).tag_mask.length =
        (processSentence tk no_tag tokens tags).indexes.length ∧
      (processSentence tk no_tag tokens tags).aligned_tags.length =
        (processSentence tk no_tag tokens tags).indexes.length := by
  rw [processSentence_eq]
  refine ⟨?_, ?_⟩
  · simp only [List.length_cons, List.length_append, flatMask_length tk (tags.zip tokens)]
    rfl
  · simp only [List.length_cons, List.length_append,
      flatTags_length tk no_tag (tags.zip tokens)]

/-! ### Small list helpers -/

theorem map_const_replicate {α β : Type} (b : β) (l : List α) :
    (l.map fun _ => b) = List.replicate l.length b := by
  induction l with
  | nil => rfl
  | cons x xs ih => simp [ih, List.replicate_succ]

theorem count_true_replicate_false (k : Nat) :
    (List.replicate k false).count true = 0 := by
  induction k with
  | zero => rfl
  | succ n ih => simp [List.replicate_succ, List.count_cons, ih]

theorem getD_map_of_lt {α β : Type} (f : α → β) (l : List α) (d : β) (d' : α) :
    ∀ i : Nat, i < l.length → (l.map f).getD i d = f (l.getD i d') := by
  induction l with
  | nil => intro i hi; exact absurd hi (by simp)
  | cons x xs ih =>
      intro i hi
      cases i with
      | zero => rfl
      | succ j =>
          simp only [List.map_cons, List.getD_cons_succ]
          exact ih j (by simpa using hi)

theorem getD_append_of_lt {α : Type} (l l' : List α) (d : α) :
    ∀ i : Nat, i < l.length → (l ++ l').getD i d = l.getD i d := by
  induction l with
  | nil => intro i hi; exact absurd hi (by simp)
  | cons x xs ih =>
      intro i hi
      cases i with
      | zero => rfl
      | succ j =>
          simp only [List.cons_append, List.getD_cons_succ]
          exact ih j (by simpa using hi)

theorem getD_append_of_ge {α : Type} (l l' : List α) (d : α) :
    ∀ i : Nat, l.length ≤ i → (l ++ l').getD i d = l'.getD (i - l.length) d := by
  induction l with
  | nil => intro i _; simp
  | cons x xs ih =>
      intro i hi
      cases i with
      | zero => exact absurd hi (by simp)
      | succ j =>
          simp only [List.cons_append, List.getD_cons_succ, List.length_cons]
          rw [ih j (by simpa using hi), Nat.succ_sub_succ]

theorem getD_replicate {α : Type} (x d : α) (k : Nat) :
    ∀ i : Nat, i < k → (List.replicate k x).getD i d = x := by
  induction k with
  | zero => intro i hi; exact absurd hi (by simp)
  | succ n ih =>
      intro i hi
      cases i with
      | zero => rfl
      | succ j =>
          simp only [List.replicate_succ, List.getD_cons_succ]
          exact ih j (by simpa using hi)

theorem getD_of_ge {α : Type} (l : List α) (d : α) :
    ∀ i : Nat, l.length ≤ i → l.getD i d = d := by
  induction l with
  | nil => intro i _; simp
  | cons x xs ih =>
      intro i hi
      cases i with
      | zero => exact absurd hi (by simp)
      | succ j => exact ih j (by simpa using hi)

theorem zip_eq_zip_take {α β : Type} :
    ∀ (l₁ : List α) (l₂ : List β),
      l₁.zip l₂ =
        (l₁.take (min l₁.length l₂.length)).zip (l₂.take (min l₁.length l₂.length)) := by
  intro l₁
  induction l₁ with
  | nil => intro l₂; simp
  | cons x xs ih =>
      intro l₂
      cases l₂ with
      | nil => simp
      | cons y ys =>
          simp only [List.length_cons, Nat.succ_min_succ, List.take_succ_cons,
            List.zip_cons_cons]
          rw [← ih ys]

/-! ### Unfolding the batch function on a nonempty batch -/

theorem get_aligned_eq_some (tk : Tokeniser) (no_tag : Nat)
    (text_tokens : List (List String)) (text_tags : List (List Nat))
    (h : preSentences tk no_tag text_tokens text_tags ≠ []) :
    get_aligned_tokens_and_tags tk text_tokens text_tags no_tag =
      some
        ⟨(preSentences tk no_tag text_tokens text_tags).map fun a =>
            a.indexes ++
              List.replicate (batchMaxLen tk no_tag text_tokens text_tags - a.indexes.length)
                tk.pad_token_id,
          (preSentences tk no_tag text_tokens text_tags).map fun a =>
            List.replicate a.indexes.length 1 ++
              List.replicate (batchMaxLen tk no_tag text_tokens text_tags - a.indexes.length) 0,
          (preSentences tk no_tag text_tokens text_tags).map fun a =>
            a.aligned_tags ++
              List.replicate (batchMaxLen tk no_tag text_tokens text_tags - a.indexes.length)
                no_tag,
          (preSentences tk no_tag text_tokens text_tags).map fun a =>
            a.tag_mask ++
              List.replicate (batchMaxLen tk no_tag text_tokens text_tags - a.indexes.length)
                false⟩ := by
  unfold get_aligned_tokens_and_tags batchMaxLen
  cases hp : preSentences tk no_tag text_tokens text_tags with
  | nil => exact absurd hp h
  | cons a as => rfl

theorem le_maxLen (lens : List Nat) :
    ∀ (init : Nat) (x : Nat), x ∈ lens → x ≤ lens.foldl max init := by
  induction lens with
  | nil => intro init x hx; exact absurd hx (by simp)
  | cons l ls ih =>
      intro init x hx
      rcases List.mem_cons.mp hx with h | h
      · subst h
        calc x ≤ max init x := le_max_right _ _
        _ ≤ ls.foldl max (max init x) := by
              clear ih hx
              induction ls generalizing init x with
              | nil => exact le_rfl
              | cons m ms ihm =>
                  simp only [List.foldl_cons]
                  exact le_trans (le_max_left _ _) (ihm _ _)
      · exact ih (max init l) x h

theorem mem_le_batchMaxLen (tk : Tokeniser) (no_tag : Nat)
    (text_tokens : List (List String)) (text_tags : List (List Nat)) (a : SentAcc)
    (ha : a ∈ preSentences tk no_tag text_tokens text_tags) :
    a.indexes.length ≤ batchMaxLen tk no_tag text_tokens text_tags :=
  le_maxLen _ 0 a.indexes.length (List.mem_map_of_mem _ ha)

/-! ### Shape and counting lemmas for the tag-carrier mask -/

theorem count_true_flatMask (tk : Tokeniser) (pairs : List (Nat × String))
    (h : ∀ p ∈ pairs, wordPieces tk p.2 ≠ []) :
    (pairs.flatMap fun p => wordMask (wordPieces tk p.2)).count true = pairs.length := by
  induction pairs with
  | nil => rfl
  | cons p ps ih =>
      have hp : wordPieces tk p.2 ≠ [] := h p (List.mem_cons_self p ps)
      have hps : ∀ q ∈ ps, wordPieces tk q.2 ≠ [] := fun q hq => h q (List.mem_cons_of_mem p hq)
      cases hw : wordPieces tk p.2 with
      | nil => exact absurd hw hp
      | cons q rest =>
          rw [List.flatMap_cons, hw, List.count_append, ih hps]
          have hhead : (wordMask (q :: rest)).count true = 1 := by
            simp [wordMask, map_const_replicate, List.count_cons,
              count_true_replicate_false]
          rw [hhead, List.length_cons]
          omega

theorem flatMask_shape (tk : Tokeniser) (pairs : List (Nat × String))
    (h : ∀ p ∈ pairs, wordPieces tk p.2 ≠ []) :
    (pairs.flatMap fun p => wordMask (wordPieces tk p.2)) =
      pairs.flatMap fun p => true :: List.replicate ((wordPieces tk p.2).length - 1) false := by
  induction pairs with
  | nil => rfl
  | cons p ps ih =>
      have hp : wordPieces tk p.2 ≠ [] := h p (List.mem_cons_self p ps)
      have hps : ∀ q ∈ ps, wordPieces tk q.2 ≠ [] := fun q hq => h q (List.mem_cons_of_mem p hq)
      cases hw : wordPieces tk p.2 with
      | nil => exact absurd hw hp
      | cons q rest =>
          rw [List.flatMap_cons, List.flatMap_cons, hw, ih hps]
          congr 1
          simp [wordMask, map_const_replicate]

theorem flatTags_shape (tk : Tokeniser) (no_tag : Nat) (pairs : List (Nat × String))
    (h : ∀ p ∈ pairs, wordPieces tk p.2 ≠ []) :
    (pairs.flatMap fun p => wordTags p.1 no_tag (wordPieces tk p.2)) =
      pairs.flatMap fun p => p.1 :: List.replicate ((wordPieces tk p.2).length - 1) no_tag := by
  induction pairs with
  | nil => rfl
  | cons p ps ih =>
      have hp : wordPieces tk p.2 ≠ [] := h p (List.mem_cons_self p ps)
      have hps : ∀ q ∈ ps, wordPieces tk q.2 ≠ [] := fun q hq => h q (List.mem_cons_of_mem p hq)
      cases hw : wordPieces tk p.2 with
      | nil => exact absurd hw hp
      | cons q rest =>
          rw [List.flatMap_cons, List.flatMap_cons, hw, ih hps]
          congr 1
          simp [wordTags, map_const_replicate]

/-! ### Claim C1 — length-mismatch handling -/

/-- C1 counterexample: the claim says a sentence whose word sequence and tag
sequence have different lengths is reported to the caller and never
silently zipped to the shorter sequence.  On the batch with one sentence of
two words `["I", "like"]` but a single tag `[1]`, the notebook function
reports nothing (it returns a result, not the failure value) and its output
is exactly the output for the single zipped pair `(1, "I")`: the word
`"like"` has been silently dropped. -/
theorem c1_mismatch_not_reported :
    get_aligned_tokens_and_tags demoTok [["I", "like"]] [[1]] 0 =
      some ⟨[[101, 146, 102]], [[1, 1, 1]], [[0, 1, 0]], [[false, true, false]]⟩ := by
  decide

/-- C1 amended: on a length mismatch the aligner does not report anything;
`zip` silently truncates to the shorter sequence, so every sentence is
processed exactly as if both of its sequences were first truncated to
their common length, and the whole batch result is unchanged by that
truncation. -/
theorem c1_mismatch_zip_shorter (tk : Tokeniser) (nt : Nat)
    (tokens : List String) (tags : List Nat)
    (text_tokens : List (List String)) (text_tags : List (List Nat)) :
    processSentence tk nt tokens tags =
      processSentence tk nt (tokens.take (min tokens.length tags.length))
        (tags.take (min tokens.length tags.length)) ∧
    get_aligned_tokens_and_tags tk text_tokens text_tags nt =
      get_aligned_tokens_and_tags tk
        ((text_tokens.zip text_tags).map fun p => p.1.take (min p.1.length p.2.length))
        ((text_tokens.zip text_tags).map fun p => p.2.take (min p.1.length p.2.length))
        nt := by
  constructor
  · unfold processSentence
    rw [zip_eq_zip_take tags tokens, Nat.min_comm tags.length tokens.length]
  · have hpre : preSentences tk nt
        ((text_tokens.zip text_tags).map fun p => p.1.take (min p.1.length p.2.length))
        ((text_tokens.zip text_tags).map fun p => p.2.take (min p.1.length p.2.length)) =
        preSentences tk nt text_tokens text_tags := by
      unfold preSentences
      rw [List.zip_map', List.map_map]
      refine List.map_congr_left fun p _ => ?_
      show processSentence tk nt (p.1.take (min p.1.length p.2.length))
          (p.2.take (min p.1.length p.2.length)) = processSentence tk nt p.1 p.2
      unfold processSentence
      rw [zip_eq_zip_take p.2 p.1, Nat.min_comm p.2.length p.1.length]
    unfold get_aligned_tokens_and_tags
    rw [hpre]

/-! ### Claim C2 — words that tokenize to zero subwords -/

/-- C2 counterexample: the claim says a word that the tokenizer maps to zero
subword ids is reported, or replaced by an unknown-token placeholder so
that its tag still appears.  For the sentence `["zz"]` with tag `[3]`,
where `demoTok` maps `"zz"` to zero subwords (its id list is just the CLS
and SEP markers), the notebook function reports nothing and returns a
sentence holding only the CLS and SEP positions: tag `3` appears nowhere
in the aligned output and the tag-carrier mask holds no `True`. -/
theorem c2_empty_tokenization_dropped :
    get_aligned_tokens_and_tags demoTok [["zz"]] [[3]] 0 =
      some ⟨[[101, 102]], [[1, 1]], [[0, 0]], [[false, false]]⟩ := by
  decide

/-- C2 amended: a word that tokenizes to zero subword ids is silently
skipped — the aligner's output for a sentence containing such a word is
exactly its output for the sentence with that word and its tag removed, so
the word's tag is dropped from the aligned output and no error is
reported. -/
theorem c2_zero_subword_word_skipped (tk : Tokeniser) (nt : Nat)
    (pre post : List String) (tpre tpost : List Nat) (w : String) (t : Nat)
    (hlen : tpre.length = pre.length) (hw : wordPieces tk w = []) :
    processSentence tk nt (pre ++ w :: post) (tpre ++ t :: tpost) =
      processSentence tk nt (pre ++ post) (tpre ++ tpost) := by
  unfold processSentence
  rw [List.zip_append hlen, List.zip_append hlen, List.zip_cons_cons]
  have hsplit :
      outerLoop tk nt (tpre.zip pre ++ (t, w) :: tpost.zip post) =
        outerLoop tk nt (tpre.zip pre ++ tpost.zip post) := by
    funext acc
    rw [outerLoop_eq, outerLoop_eq]
    simp [hw, wordMask, wordTags]
  rw [hsplit]

/-- Witness for the C2 amended theorem at a concrete input. -/
theorem c2_zero_subword_word_skipped_witness :
    processSentence demoTok 0 ["I", "zz", "like"] [1, 9, 4] =
      processSentence demoTok 0 ["I", "like"] [1, 4] :=
  c2_zero_subword_word_skipped demoTok 0 ["I"] ["like"] [1] [4] "zz" 9 (by decide) (by decide)

/-! ### Claim C7 — totality over batches -/

/-- C7 counterexample: the claim says the aligner returns its four outputs
for every batch, including the empty batch of zero sentences.  On the
empty batch the notebook code evaluates `max(len(indexes) for indexes in
text_indexes)` over an empty sequence, which raises `ValueError`; in the
embedding this is the `none` result. -/
theorem c7_empty_batch_fails :
    get_aligned_tokens_and_tags demoTok [] [] 0 = none := by
  decide

/-- C7 amended: for every batch holding at least one sentence (both input
lists nonempty), the aligner is total: it returns its four outputs.  The
only failure path of the function is the empty batch; length-mismatched or
zero-subword sentences do not raise (claims C1 and C2). -/
theorem c7_total_on_nonempty (tk : Tokeniser) (nt : Nat)
    (text_tokens : List (List String)) (text_tags : List (List Nat))
    (h1 : text_tokens ≠ []) (h2 : text_tags ≠ []) :
    (get_aligned_tokens_and_tags tk text_tokens text_tags nt).isSome := by
  have hpre : preSentences tk nt text_tokens text_tags ≠ [] := by
    cases text_tokens with
    | nil => exact absurd rfl h1
    | cons a as =>
        cases text_tags with
        | nil => exact absurd rfl h2
        | cons b bs => simp [preSentences]
  rw [get_aligned_eq_some tk nt text_tokens text_tags hpre]
  rfl

/-- Witness for the C7 amended theorem at a concrete input. -/
theorem c7_total_on_nonempty_witness :
    (get_aligned_tokens_and_tags demoTok [["I"]] [[1]] 0).isSome :=
  c7_total_on_nonempty demoTok 0 [["I"]] [[1]] (by decide) (by decide)

/-! ### Claim C9 — per-word ids are the tokenizer output stripped of its markers -/

/-- C9: the id sequence the aligner emits is the CLS id, then, for every
zipped (tag, word) pair in order, exactly `tokeniser(word)['input_ids']`
with its first and last elements removed, then the SEP id; and a word
whose tokenizer output has two or fewer ids contributes zero subword
positions. -/
theorem c9_word_pieces_strip_markers (tk : Tokeniser) (nt : Nat)
    (tokens : List String) (tags : List Nat) :
    (processSentence tk nt tokens tags).indexes =
      tk.cls_token_id ::
        ((tags.zip tokens).flatMap fun p => ((tk.tok p.2).drop 1).dropLast) ++
        [tk.sep_token_id] ∧
    ∀ w : String, (tk.tok w).length ≤ 2 → wordPieces tk w = [] := by
  constructor
  · rw [processSentence_eq]
    rfl
  · intro w hw
    have hlen : (wordPieces tk w).length = 0 := by
      simp only [wordPieces, List.length_dropLast, List.length_drop]
      omega
    exact List.eq_nil_of_length_eq_zero hlen

/-- Witness for C9 at a concrete input: a one-word sentence emits exactly
the stripped ids of that word between the CLS and SEP ids, and the word
`"zz"`, whose tokenizer output `[101, 102]` has two ids, yields no
subword pieces. -/
theorem c9_word_pieces_strip_markers_witness :
    (processSentence demoTok 0 ["I"] [1]).indexes = [101, 146, 102] ∧
      wordPieces demoTok "zz" = [] :=
  ⟨((c9_word_pieces_strip_markers demoTok 0 ["I"] [1]).1).trans (by decide),
    (c9_word_pieces_strip_markers demoTok 0 ["I"] [1]).2 "zz" (by decide)⟩

/-! ### Claim C3 — tag-carrier count per sentence -/

theorem getD_mem_of_lt {α : Type} (l : List α) (d : α) :
    ∀ i : Nat, i < l.length → l.getD i d ∈ l := by
  induction l with
  | nil => intro i hi; exact absurd hi (by simp)
  | cons x xs ih =>
      intro i hi
      cases i with
      | zero => exact List.mem_cons_self x xs
      | succ j => exact List.mem_cons_of_mem x (ih j (by simpa using hi))

/-- C3 counterexample: the claim says that for a sentence with equal-length
word and tag sequences the tag-carrier mask holds one `True` per (word,
tag) pair.  The sentence `["zz", "I"]` with tags `[3, 4]` has two pairs,
but `"zz"` tokenizes to zero subwords under `demoTok`, so the produced
mask `[False, True, False]` holds a single `True`. -/
theorem c3_carrier_count_counterexample :
    (["zz", "I"] : List String).length = 2 ∧ ([3, 4] : List Nat).length = 2 ∧
    (get_aligned_tokens_and_tags demoTok [["zz", "I"]] [[3, 4]] 0).map
        (fun out => (out.text_tag_masks.getD 0 []).count true) = some 1 := by
  decide

/-- C3 amended: for every sentence of the batch whose word and tag
sequences have equal length and all of whose words tokenize to at least
one subword id, the number of `True` entries in that sentence's padded
tag-carrier mask row equals the number of (word, tag) pairs (batch padding
contributes only `False`).  Without the added all-words-nonempty
hypothesis the count can fall short, as the counterexample shows. -/
theorem c3_carrier_count (tk : Tokeniser) (nt : Nat)
    (text_tokens : List (List String)) (text_tags : List (List Nat))
    (out : AlignedBatch)
    (h : get_aligned_tokens_and_tags tk text_tokens text_tags nt = some out)
    (i : Nat) (hi : i < (text_tokens.zip text_tags).length)
    (hlen : ((text_tokens.zip text_tags).getD i ([], [])).1.length =
        ((text_tokens.zip text_tags).getD i ([], [])).2.length)
    (hne : ∀ w ∈ ((text_tokens.zip text_tags).getD i ([], [])).1, wordPieces tk w ≠ []) :
    (out.text_tag_masks.getD i []).count true =
      ((text_tokens.zip text_tags).getD i ([], [])).1.length := by
  have hlenpre : (preSentences tk nt text_tokens text_tags).length =
      (text_tokens.zip text_tags).length := by
    simp [preSentences]
  have hpre_ne : preSentences tk nt text_tokens text_tags ≠ [] := by
    refine List.ne_nil_of_length_pos ?_
    rw [hlenpre]
    omega
  rw [get_aligned_eq_some tk nt text_tokens text_tags hpre_ne] at h
  have hout := (Option.some.injEq _ _).mp h
  subst hout
  have hi' : i < (preSentences tk nt text_tokens text_tags).length := by rw [hlenpre]; exact hi
  rw [show (⟨_, _, _, (preSentences tk nt text_tokens text_tags).map fun a =>
        a.tag_mask ++ List.replicate
          (batchMaxLen tk nt text_tokens text_tags - a.indexes.length) false⟩ :
      AlignedBatch).text_tag_masks =
      (preSentences tk nt text_tokens text_tags).map fun a =>
        a.tag_mask ++ List.replicate
          (batchMaxLen tk nt text_tokens text_tags - a.indexes.length) false from rfl]
  rw [getD_map_of_lt _ _ _ ⟨[], [], []⟩ i hi']
  rw [show (preSentences tk nt text_tokens text_tags).getD i ⟨[], [], []⟩ =
      ((text_tokens.zip text_tags).map fun p => processSentence tk nt p.1 p.2).getD i
        ⟨[], [], []⟩ from rfl]
  rw [getD_map_of_lt _ _ _ ([], []) i hi]
  rw [List.count_append]
  have hrep : (List.replicate
      (batchMaxLen tk nt text_tokens text_tags -
        (processSentence tk nt ((text_tokens.zip text_tags).getD i ([], [])).1
          ((text_tokens.zip text_tags).getD i ([], [])).2).indexes.length)
      false).count true = 0 := count_true_replicate_false _
  rw [hrep]
  rw [processSentence_eq]
  have hzip : ∀ p ∈ (((text_tokens.zip text_tags).getD i ([], [])).2.zip
      ((text_tokens.zip text_tags).getD i ([], [])).1), wordPieces tk p.2 ≠ [] :=
    fun p hp => hne p.2 (List.of_mem_zip hp).2
  simp only [List.count_cons, List.count_append,
    count_true_flatMask tk _ hzip]
  simp [List.length_zip, ← hlen]
  exact le_of_eq (by simpa only [List.getD_eq_getElem?_getD] using hlen)

/-- Witness for the C3 amended theorem: a one-sentence batch with two
words, both tokenizing to at least one subword, yields exactly two `True`
entries in the (padded) tag-carrier mask row. -/
theorem c3_carrier_count_witness :
    get_aligned_tokens_and_tags demoTok [["I", "don't"]] [[1, 2]] 0 =
      some ⟨[[101, 146, 1274, 112, 189, 102]], [[1, 1, 1, 1, 1, 1]],
        [[0, 1, 2, 0, 0, 0]], [[false, true, true, false, false, false]]⟩ ∧
    ((some ⟨[[101, 146, 1274, 112, 189, 102]], [[1, 1, 1, 1, 1, 1]],
        [[0, 1, 2, 0, 0, 0]],
        [[false, true, true, false, false, false]]⟩ : Option AlignedBatch).map
      fun out => (out.text_tag_masks.getD 0 []).count true) = some 2 := by
  refine ⟨by decide, ?_⟩
  have := c3_carrier_count demoTok 0 [["I", "don't"]] [[1, 2]]
    ⟨[[101, 146, 1274, 112, 189, 102]], [[1, 1, 1, 1, 1, 1]],
      [[0, 1, 2, 0, 0, 0]], [[false, true, true, false, false, false]]⟩
    (by decide) 0 (by decide) (by decide) (by decide)
  simpa using this

/-! ### Claim C4 — per-sentence emission order -/

/-- C4: for a sentence with equal-length word and tag sequences all of
whose words tokenize to at least one subword, the aligner emits the CLS id
(non-carrying, `no_tag`), then for each (word, tag) pair in order all of
the word's subword ids with the first position `True`/`tag` and every
later position `False`/`no_tag`, then the SEP id (non-carrying,
`no_tag`); and in the concrete five-word scenario the aligned tags are
`[no_tag, PRON, VERB, no_tag, no_tag, PROP, PROP, ., no_tag]`
(`[0, 1, 2, 0, 0, 4, 4, 5, 0]` under the notebook's tag indices) with the
five `True` carrier positions at the start of each word's subword span. -/
theorem c4_emission_order (tk : Tokeniser) (nt : Nat)
    (tokens : List String) (tags : List Nat)
    (hlen : tokens.length = tags.length)
    (hne : ∀ w ∈ tokens, wordPieces tk w ≠ []) :
    processSentence tk nt tokens tags =
      ⟨tk.cls_token_id :: ((tags.zip tokens).flatMap fun p => wordPieces tk p.2) ++
          [tk.sep_token_id],
        false :: ((tags.zip tokens).flatMap fun p =>
          true :: List.replicate ((wordPieces tk p.2).length - 1) false) ++ [false],
        nt :: ((tags.zip tokens).flatMap fun p =>
          p.1 :: List.replicate ((wordPieces tk p.2).length - 1) nt) ++ [nt]⟩ ∧
    processSentence demoTok 0 ["I", "don't", "like", "it", "."] [1, 2, 4, 4, 5] =
      ⟨[101, 146, 1274, 112, 189, 1176, 1122, 119, 102],
        [false, true, true, false, false, true, true, true, false],
        [0, 1, 2, 0, 0, 4, 4, 5, 0]⟩ := by
  refine ⟨?_, by decide⟩
  have hmem : ∀ p ∈ tags.zip tokens, wordPieces tk p.2 ≠ [] :=
    fun p hp => hne p.2 (List.of_mem_zip hp).2
  rw [processSentence_eq, flatMask_shape tk _ hmem, flatTags_shape tk nt _ hmem]

/-- Witness for C4: the concrete five-word scenario of the notebook. -/
theorem c4_emission_order_witness :
    processSentence demoTok 0 ["I", "don't", "like", "it", "."] [1, 2, 4, 4, 5] =
      ⟨[101, 146, 1274, 112, 189, 1176, 1122, 119, 102],
        [false, true, true, false, false, true, true, true, false],
        [0, 1, 2, 0, 0, 4, 4, 5, 0]⟩ :=
  (c4_emission_order demoTok 0 ["I", "don't", "like", "it", "."] [1, 2, 4, 4, 5]
    (by decide) (by decide)).2

/-! ### Claim C5 — batch padding -/

/-- C5: on every batch holding at least one sentence, the aligner pads all
four per-sentence rows to the batch maximum pre-padding length `m`: the
token-id row is the pre-padding ids right-padded with the pad token id,
the token-presence row is ones followed by zeros, padded positions carry
tag-carrier `False` and aligned-tag `no_tag`, and all four rows of every
sentence have length exactly `m`. -/
theorem c5_batch_padding (tk : Tokeniser) (nt : Nat)
    (text_tokens : List (List String)) (text_tags : List (List Nat))
    (h1 : text_tokens ≠ []) (h2 : text_tags ≠ []) :
    paddingSpec tk nt text_tokens text_tags := by
  have hpre_ne : preSentences tk nt text_tokens text_tags ≠ [] := by
    cases text_tokens with
    | nil => exact absurd rfl h1
    | cons a as =>
        cases text_tags with
        | nil => exact absurd rfl h2
        | cons b bs => simp [preSentences]
  refine ⟨_, get_aligned_eq_some tk nt text_tokens text_tags hpre_ne, ?_⟩
  intro i hi
  have hlenpre : (preSentences tk nt text_tokens text_tags).length =
      (text_tokens.zip text_tags).length := by simp [preSentences]
  have hi' : i < (preSentences tk nt text_tokens text_tags).length := by
    rw [hlenpre]; exact hi
  have hmem := getD_mem_of_lt (preSentences tk nt text_tokens text_tags) ⟨[], [], []⟩ i hi'
  have hle := mem_le_batchMaxLen tk nt text_tokens text_tags _ hmem
  have ha : (preSentences tk nt text_tokens text_tags).getD i ⟨[], [], []⟩ =
      processSentence tk nt ((text_tokens.zip text_tags).getD i ([], [])).1
        ((text_tokens.zip text_tags).getD i ([], [])).2 :=
    by unfold preSentences; exact getD_map_of_lt _ _ _ ([], []) i hi
  have hlock := sentAcc_lockstep tk nt
    ((text_tokens.zip text_tags).getD i ([], [])).1
    ((text_tokens.zip text_tags).getD i ([], [])).2
  have hlock1 : ((preSentences tk nt text_tokens text_tags).getD i ⟨[], [], []⟩).tag_mask.length =
      ((preSentences tk nt text_tokens text_tags).getD i ⟨[], [], []⟩).indexes.length := by
    rw [ha]; exact hlock.1
  have hlock2 : ((preSentences tk nt text_tokens text_tags).getD i
        ⟨[], [], []⟩).aligned_tags.length =
      ((preSentences tk nt text_tokens text_tags).getD i ⟨[], [], []⟩).indexes.length := by
    rw [ha]; exact hlock.2
  have e1 := getD_map_of_lt
    (fun a : SentAcc => a.indexes ++
      List.replicate (batchMaxLen tk nt text_tokens text_tags - a.indexes.length)
        tk.pad_token_id)
    (preSentences tk nt text_tokens text_tags) [] ⟨[], [], []⟩ i hi'
  have e2 := getD_map_of_lt
    (fun a : SentAcc => List.replicate a.indexes.length 1 ++
      List.replicate (batchMaxLen tk nt text_tokens text_tags - a.indexes.length) 0)
    (preSentences tk nt text_tokens text_tags) [] ⟨[], [], []⟩ i hi'
  have e3 := getD_map_of_lt
    (fun a : SentAcc => a.aligned_tags ++
      List.replicate (batchMaxLen tk nt text_tokens text_tags - a.indexes.length) nt)
    (preSentences tk nt text_tokens text_tags) [] ⟨[], [], []⟩ i hi'
  have e4 := getD_map_of_lt
    (fun a : SentAcc => a.tag_mask ++
      List.replicate (batchMaxLen tk nt text_tokens text_tags - a.indexes.length) false)
    (preSentences tk nt text_tokens text_tags) [] ⟨[], [], []⟩ i hi'
  have l1 : ((((preSentences tk nt text_tokens text_tags).map fun a =>
      a.indexes ++ List.replicate (batchMaxLen tk nt text_tokens text_tags - a.indexes.length)
        tk.pad_token_id).getD i []).length) = batchMaxLen tk nt text_tokens text_tags := by
    rw [e1, List.length_append, List.length_replicate]
    omega
  have l2 : ((((preSentences tk nt text_tokens text_tags).map fun a =>
      List.replicate a.indexes.length 1 ++
        List.replicate (batchMaxLen tk nt text_tokens text_tags - a.indexes.length) 0).getD
          i []).length) = batchMaxLen tk nt text_tokens text_tags := by
    rw [e2, List.length_append, List.length_replicate, List.length_replicate]
    omega
  have l3 : ((((preSentences tk nt text_tokens text_tags).map fun a =>
      a.aligned_tags ++
        List.replicate (batchMaxLen tk nt text_tokens text_tags - a.indexes.length) nt).getD
          i []).length) = batchMaxLen tk nt text_tokens text_tags := by
    rw [e3, List.length_append, List.length_replicate, hlock2]
    omega
  have l4 : ((((preSentences tk nt text_tokens text_tags).map fun a =>
      a.tag_mask ++
        List.replicate (batchMaxLen tk nt text_tokens text_tags - a.indexes.length) false).getD
          i []).length) = batchMaxLen tk nt text_tokens text_tags := by
    rw [e4, List.length_append, List.length_replicate, hlock1]
    omega
  exact ⟨hle, e1, e2, e3, e4, l1, l2, l3, l4⟩

/-- Witness for C5 at a concrete two-sentence batch with pre-padding
lengths 6 and 3. -/
theorem c5_batch_padding_witness :
    paddingSpec demoTok 0 [["I", "don't"], ["."]] [[1, 2], [5]] :=
  c5_batch_padding demoTok 0 [["I", "don't"], ["."]] [[1, 2], [5]] (by decide) (by decide)

/-! ### Claim C6 — tag-carrier mask implies token-presence mask -/

theorem getD_replicate_any {α : Type} (x : α) (k j : Nat) :
    (List.replicate k x).getD j x = x := by
  by_cases hjk : j < k
  · exact getD_replicate x x k j hjk
  · exact getD_of_ge _ _ j (by simp only [List.length_replicate]; omega)

/-- C6: in every output of the aligner, at every sentence row `i` and
position `j`, if the tag-carrier mask holds `True` then the
token-presence mask holds `1`.  Out-of-range positions read the defaults
`False` and `0`. -/
theorem c6_carrier_implies_presence (tk : Tokeniser) (nt : Nat)
    (text_tokens : List (List String)) (text_tags : List (List Nat))
    (out : AlignedBatch)
    (h : get_aligned_tokens_and_tags tk text_tokens text_tags nt = some out)
    (i j : Nat)
    (htrue : (out.text_tag_masks.getD i []).getD j false = true) :
    (out.text_token_masks.getD i []).getD j 0 = 1 := by
  have hpre_ne : preSentences tk nt text_tokens text_tags ≠ [] := by
    intro hnil
    rw [show get_aligned_tokens_and_tags tk text_tokens text_tags nt = none by
      unfold get_aligned_tokens_and_tags; rw [hnil]] at h
    exact Option.noConfusion h
  rw [get_aligned_eq_some tk nt text_tokens text_tags hpre_ne] at h
  have hout := (Option.some.injEq _ _).mp h
  subst hout
  by_cases hi : i < (preSentences tk nt text_tokens text_tags).length
  · have etag := getD_map_of_lt
      (fun a : SentAcc => a.tag_mask ++
        List.replicate (batchMaxLen tk nt text_tokens text_tags - a.indexes.length) false)
      (preSentences tk nt text_tokens text_tags) [] ⟨[], [], []⟩ i hi
    have etok := getD_map_of_lt
      (fun a : SentAcc => List.replicate a.indexes.length 1 ++
        List.replicate (batchMaxLen tk nt text_tokens text_tags - a.indexes.length) 0)
      (preSentences tk nt text_tokens text_tags) [] ⟨[], [], []⟩ i hi
    rw [etag] at htrue
    rw [etok]
    have hlenpre : (preSentences tk nt text_tokens text_tags).length =
        (text_tokens.zip text_tags).length := by simp [preSentences]
    have ha : (preSentences tk nt text_tokens text_tags).getD i ⟨[], [], []⟩ =
        processSentence tk nt ((text_tokens.zip text_tags).getD i ([], [])).1
          ((text_tokens.zip text_tags).getD i ([], [])).2 :=
      by unfold preSentences; exact getD_map_of_lt _ _ _ ([], []) i (by rw [← hlenpre]; exact hi)
    have hlock : ((preSentences tk nt text_tokens text_tags).getD i
          ⟨[], [], []⟩).tag_mask.length =
        ((preSentences tk nt text_tokens text_tags).getD i ⟨[], [], []⟩).indexes.length := by
      rw [ha]
      exact (sentAcc_lockstep tk nt _ _).1
    have hj : j < ((preSentences tk nt text_tokens text_tags).getD i
        ⟨[], [], []⟩).tag_mask.length := by
      by_contra hge
      push_neg at hge
      rw [getD_append_of_ge _ _ false j hge, getD_replicate_any] at htrue
      exact Bool.noConfusion htrue
    rw [getD_append_of_lt _ _ 0 j (by rw [List.length_replicate, ← hlock]; exact hj)]
    exact getD_replicate 1 0 _ j (by rw [← hlock]; exact hj)
  · exfalso
    push_neg at hi
    rw [getD_of_ge _ _ i (by rw [List.length_map]; exact hi)] at htrue
    rw [show ([] : List Bool).getD j false = false from rfl] at htrue
    exact Bool.noConfusion htrue

/-- Witness for C6 at a concrete input: in the one-sentence batch for
`["I"]`, position 1 of row 0 carries the tag and indeed holds a present
token. -/
theorem c6_carrier_implies_presence_witness :
    get_aligned_tokens_and_tags demoTok [["I"]] [[1]] 0 =
        some ⟨[[101, 146, 102]], [[1, 1, 1]], [[0, 1, 0]], [[false, true, false]]⟩ ∧
    ((([[1, 1, 1]] : List (List Nat)).getD 0 []).getD 1 0 = 1) :=
  ⟨by decide,
    c6_carrier_implies_presence demoTok 0 [["I"]] [[1]]
      ⟨[[101, 146, 102]], [[1, 1, 1]], [[0, 1, 0]], [[false, true, false]]⟩
      (by decide) 0 1 (by decide)⟩

/-! ### The greedy replacement relation -/

theorem runStr_nil : runStr [] = [] := rfl

theorem runStr_cons (a : BToken) (R : BWord) : runStr (a :: R) = a.1 ++ runStr R := by
  simp [runStr]

theorem runMark_cons (a : BToken) (R : BWord) : runMark (a :: R) = a.2 := rfl

theorem replacePair_grel (u v m : BToken) (w : BWord) :
    GRel u v m w (replacePair u v m w) := by
  have H : ∀ n (w : BWord), w.length ≤ n → GRel u v m w (replacePair u v m w) := by
    intro n
    induction n with
    | zero =>
        intro w hw
        have hnil : w = [] := List.eq_nil_of_length_eq_zero (Nat.le_zero.mp hw)
        subst hnil
        exact GRel.nil
    | succ n ih =>
        intro w hw
        match w with
        | [] => exact GRel.nil
        | [x] =>
            rw [show replacePair u v m [x] = [x] from rfl]
            exact GRel.copy (by simp) GRel.nil
        | x :: y :: rest =>
            rw [replacePair]
            by_cases hc : x = u ∧ y = v
            · rw [if_pos hc]
              obtain ⟨hx, hy⟩ := hc
              subst hx
              subst hy
              exact GRel.repl (ih rest (by simp only [List.length_cons] at hw; omega))
            · rw [if_neg hc]
              refine GRel.copy ?_ (ih (y :: rest) (by simp only [List.length_cons] at hw ⊢; omega))
              simpa using hc
  exact H w.length w le_rfl

theorem grel_runStr {u v m : BToken} (hm1 : m.1 = u.1 ++ v.1) :
    ∀ {R R' : BWord}, GRel u v m R R' → runStr R' = runStr R := by
  intro R R' h
  induction h with
  | nil => rfl
  | repl h ih => simp [runStr_cons, ih, hm1, List.append_assoc]
  | copy hc h ih => simp [runStr_cons, ih]

theorem grel_runMark {u v m : BToken} (hm2 : m.2 = u.2) :
    ∀ {R R' : BWord}, GRel u v m R R' → R' ≠ [] → runMark R' = runMark R := by
  intro R R' h
  cases h with
  | nil => intro hne; exact absurd rfl hne
  | repl h => intro _; simp [runMark_cons, hm2]
  | copy hc h => intro _; rfl

theorem grel_length {u v m : BToken} :
    ∀ {R R' : BWord}, GRel u v m R R' → R'.length ≤ R.length := by
  intro R R' h
  induction h with
  | nil => exact le_rfl
  | repl h ih => simp only [List.length_cons]; omega
  | copy hc h ih => simp only [List.length_cons]; omega

theorem grel_nil_iff {u v m : BToken} :
    ∀ {R R' : BWord}, GRel u v m R R' → (R = [] ↔ R' = []) := by
  intro R R' h
  cases h with
  | nil => simp
  | repl h => simp
  | copy hc h => simp

theorem grel_det {u v m : BToken} :
    ∀ {R R1' : BWord}, GRel u v m R R1' → ∀ {R2' : BWord}, GRel u v m R R2' → R1' = R2' := by
  intro R R1' h1
  induction h1 with
  | nil =>
      intro R2' h2
      cases h2
      rfl
  | repl h ih =>
      intro R2' h2
      cases h2 with
      | repl h2' => rw [ih h2']
      | copy hc h2' => exact absurd ⟨rfl, rfl⟩ hc
  | copy hc h ih =>
      intro R2' h2
      cases h2 with
      | repl h2' => exact absurd ⟨rfl, rfl⟩ hc
      | copy hc2 h2' => rw [ih h2']

theorem grel_take {u v m : BToken} :
    ∀ {w w' : BWord}, GRel u v m w w' → ∀ {R' post' : BWord}, w' = R' ++ post' →
      ∃ R post, w = R ++ post ∧ GRel u v m R R' := by
  intro w w' h
  induction h with
  | nil =>
      intro R' post' he
      cases R' with
      | nil => exact ⟨[], [], rfl, GRel.nil⟩
      | cons a l => exact absurd he.symm (by simp)
  | repl h ih =>
      intro R' post' he
      cases R' with
      | nil => exact ⟨[], _, rfl, GRel.nil⟩
      | cons y R'' =>
          rw [List.cons_append] at he
          injection he with h1 h2
          obtain ⟨R₂, post, hw, hg⟩ := ih h2
          refine ⟨u :: v :: R₂, post, by rw [hw]; rfl, ?_⟩
          rw [← h1]
          exact GRel.repl hg
  | copy hc h ih =>
      intro R' post' he
      cases R' with
      | nil => exact ⟨[], _, rfl, GRel.nil⟩
      | cons y R'' =>
          rw [List.cons_append] at he
          injection he with h1 h2
          obtain ⟨R₂, post, hw, hg⟩ := ih h2
          refine ⟨_ :: R₂, post, by rw [hw]; rfl, ?_⟩
          rw [← h1]
          refine GRel.copy ?_ hg
          rintro ⟨hxu, hhd⟩
          apply hc
          refine ⟨hxu, ?_⟩
          cases R₂ with
          | nil => exact absurd hhd (by simp)
          | cons a l =>
              rw [hw]
              simpa using hhd

theorem grel_split {u v m : BToken} :
    ∀ (pre' : BWord) {w w' : BWord}, GRel u v m w w' → ∀ {R' post' : BWord},
      w' = pre' ++ R' ++ post' →
      ∃ pre R post, w = pre ++ R ++ post ∧ GRel u v m R R' := by
  intro pre'
  induction pre' with
  | nil =>
      intro w w' h R' post' he
      obtain ⟨R, post, hw, hg⟩ := grel_take h (by simpa using he)
      exact ⟨[], R, post, by simpa using hw, hg⟩
  | cons y pre'' ih =>
      intro w w' h R' post' he
      cases h with
      | nil => exact absurd he.symm (by simp)
      | repl h' =>
          rw [List.cons_append, List.cons_append] at he
          injection he with h1 h2
          obtain ⟨pre, R, post, hw, hg⟩ := ih h' h2
          exact ⟨u :: v :: pre, R, post, by rw [hw]; rfl, hg⟩
      | copy hc h' =>
          rw [List.cons_append, List.cons_append] at he
          injection he with h1 h2
          obtain ⟨pre, R, post, hw, hg⟩ := ih h' h2
          exact ⟨_ :: pre, R, post, by rw [hw]; rfl, hg⟩

theorem grel_tokens {u v m : BToken} :
    ∀ {w w' : BWord}, GRel u v m w w' → ∀ t ∈ w', t ∈ w ∨ t = m := by
  intro w w' h
  induction h with
  | nil => intro t ht; exact absurd ht (by simp)
  | repl h ih =>
      intro t ht
      rcases List.mem_cons.mp ht with h1 | h1
      · exact Or.inr h1
      · rcases ih t h1 with h2 | h2
        · exact Or.inl (by simp [h2])
        · exact Or.inr h2
  | copy hc h ih =>
      intro t ht
      rcases List.mem_cons.mp ht with h1 | h1
      · exact Or.inl (by simp [h1])
      · rcases ih t h1 with h2 | h2
        · exact Or.inl (by simp [h2])
        · exact Or.inr h2

theorem grel_allcont {u v m : BToken} (hm2 : m.2 = u.2) :
    ∀ {w w' : BWord}, GRel u v m w w' → AllCont w → AllCont w' := by
  intro w w' h
  induction h with
  | nil => intro _; exact fun t ht => absurd ht (by simp)
  | repl h ih =>
      intro hall t ht
      rcases List.mem_cons.mp ht with h1 | h1
      · rw [h1, hm2]
        exact hall u (by simp)
      · exact ih (fun s hs => hall s (by simp [hs])) t h1
  | copy hc h ih =>
      intro hall t ht
      rcases List.mem_cons.mp ht with h1 | h1
      · rw [h1]
        exact hall _ (by simp)
      · exact ih (fun s hs => hall s (by simp [hs])) t h1

theorem grel_tailcont {u v m : BToken} (hm2 : m.2 = u.2) :
    ∀ {w w' : BWord}, GRel u v m w w' → AllCont w.tail → AllCont w'.tail := by
  intro w w' h
  cases h with
  | nil => intro _; exact fun t ht => absurd ht (by simp)
  | repl h' =>
      intro hall
      exact grel_allcont hm2 h' fun t ht => hall t (by simp [ht])
  | copy hc h' =>
      intro hall
      exact grel_allcont hm2 h' hall

/-! ### Occurrence of the selected pair -/

theorem mem_adjPairs_split (u v : BToken) :
    ∀ (w : BWord), (u, v) ∈ adjPairs w → ∃ pre post, w = pre ++ u :: v :: post := by
  intro w
  induction w with
  | nil => intro h; exact absurd h (by simp [adjPairs])
  | cons a rest ih =>
      intro h
      cases rest with
      | nil => exact absurd h (by simp [adjPairs])
      | cons b rest' =>
          rw [show adjPairs (a :: b :: rest') = (a, b) :: adjPairs (b :: rest') from rfl] at h
          rcases List.mem_cons.mp h with h1 | h1
          · injection h1 with ha hb
            exact ⟨[], rest', by rw [← ha, ← hb]; rfl⟩
          · obtain ⟨pre, post, hsplit⟩ := ih h1
            exact ⟨a :: pre, post, by rw [List.cons_append, ← hsplit]⟩

theorem selectPair_occurs {corpus : List BWord} {u v : BToken}
    (h : selectPair corpus = some (u, v)) :
    ∃ w ∈ corpus, ∃ pre post, w = pre ++ u :: v :: post := by
  unfold selectPair at h
  by_cases hle : ((corpus.flatMap adjPairs).map fun p =>
      (corpus.flatMap adjPairs).count p).foldl max 0 ≤ 1
  · rw [if_pos hle] at h
    exact absurd h (by simp)
  · rw [if_neg hle] at h
    have hmem : (u, v) ∈ corpus.flatMap adjPairs := List.mem_of_find?_eq_some h
    obtain ⟨w, hw, hp⟩ := List.mem_flatMap.mp hmem
    obtain ⟨pre, post, hsplit⟩ := mem_adjPairs_split u v w hp
    exact ⟨w, hw, pre, post, hsplit⟩

/-! ### Runs inside words -/

theorem run_tokne {w pre R post : BWord} (hsplit : w = pre ++ R ++ post)
    (h : ∀ t ∈ w, t.1 ≠ []) : ∀ t ∈ R, t.1 ≠ [] := by
  intro t ht
  exact h t (by rw [hsplit]; simp [ht])

theorem run_tail_allcont {w pre R post : BWord} (hsplit : w = pre ++ R ++ post)
    (h : AllCont w.tail) : AllCont R.tail := by
  intro t ht
  cases pre with
  | nil =>
      cases R with
      | nil => exact absurd ht (by simp)
      | cons a R' =>
          refine h t ?_
          rw [hsplit]
          simp only [List.nil_append, List.cons_append, List.tail_cons]
          simp only [List.tail_cons] at ht
          simp [ht]
  | cons p pre' =>
      refine h t ?_
      rw [hsplit]
      simp only [List.cons_append, List.tail_cons]
      have : t ∈ R := List.mem_of_mem_tail ht
      simp [this]

/-! ### Preservation of the invariants by one replacement pass -/

theorem coherent_preserved {u v m : BToken} (hm1 : m.1 = u.1 ++ v.1) (hm2 : m.2 = u.2)
    {corpus : List BWord} (hcoh : Coherent corpus) :
    Coherent (corpus.map (replacePair u v m)) := by
  intro w1' hw1' w2' hw2' pre1' R1' post1' pre2' R2' post2' he1 he2 hne1 hne2 hstr hmark
  obtain ⟨w1, hw1, hw1eq⟩ := List.mem_map.mp hw1'
  obtain ⟨w2, hw2, hw2eq⟩ := List.mem_map.mp hw2'
  have hg1 : GRel u v m w1 w1' := by rw [← hw1eq]; exact replacePair_grel u v m w1
  have hg2 : GRel u v m w2 w2' := by rw [← hw2eq]; exact replacePair_grel u v m w2
  obtain ⟨pre1, R1, post1, hsplit1, hr1⟩ := grel_split pre1' hg1 he1
  obtain ⟨pre2, R2, post2, hsplit2, hr2⟩ := grel_split pre2' hg2 he2
  have hne1' : R1 ≠ [] := fun hn => hne1 (((grel_nil_iff hr1).mp hn))
  have hne2' : R2 ≠ [] := fun hn => hne2 (((grel_nil_iff hr2).mp hn))
  have h12 : R1 = R2 := by
    refine hcoh w1 hw1 w2 hw2 pre1 R1 post1 pre2 R2 post2 hsplit1 hsplit2 hne1' hne2' ?_ ?_
    · rw [← grel_runStr hm1 hr1, ← grel_runStr hm1 hr2, hstr]
    · rw [← grel_runMark hm2 hr1 hne1, ← grel_runMark hm2 hr2 hne2, hmark]
  subst h12
  exact grel_det hr1 hr2

theorem noRunOf_preserved {u v m e : BToken} (hm1 : m.1 = u.1 ++ v.1)
    (hm2 : m.2 = u.2)
    {corpus : List BWord} (hnr : NoRunOf corpus e) :
    NoRunOf (corpus.map (replacePair u v m)) e := by
  intro w' hw' pre' R' post' he' hlen' ⟨hstr, hmark⟩
  obtain ⟨w, hw, hweq⟩ := List.mem_map.mp hw'
  have hg : GRel u v m w w' := by rw [← hweq]; exact replacePair_grel u v m w
  obtain ⟨pre, R, post, hsplit, hr⟩ := grel_split pre' hg he'
  have hne' : R' ≠ [] := by
    intro hn
    rw [hn] at hlen'
    simp at hlen'
  have hne : R ≠ [] := fun hn => hne' ((grel_nil_iff hr).mp hn)
  refine hnr w hw pre R post hsplit ?_ ⟨?_, ?_⟩
  · exact le_trans hlen' (grel_length hr)
  · rw [← grel_runStr hm1 hr]; exact hstr
  · rw [← grel_runMark hm2 hr hne']; exact hmark

theorem noRunOf_new {u v m : BToken} (hm1 : m.1 = u.1 ++ v.1) (hm2 : m.2 = u.2)
    {corpus : List BWord} (hcoh : Coherent corpus)
    {wocc : BWord} (hwocc : wocc ∈ corpus)
    {preo posto : BWord} (hocc : wocc = preo ++ u :: v :: posto) :
    NoRunOf (corpus.map (replacePair u v m)) m := by
  intro w' hw' pre' R' post' he' hlen' ⟨hstr, hmark⟩
  obtain ⟨w, hw, hweq⟩ := List.mem_map.mp hw'
  have hg : GRel u v m w w' := by rw [← hweq]; exact replacePair_grel u v m w
  obtain ⟨pre, R, post, hsplit, hr⟩ := grel_split pre' hg he'
  have hne' : R' ≠ [] := by
    intro hn
    rw [hn] at hlen'
    simp at hlen'
  have hne : R ≠ [] := fun hn => hne' ((grel_nil_iff hr).mp hn)
  -- the run `R` in the old corpus has the marked content of `m`,
  -- so coherence identifies it with the occurrence `[u, v]`
  have hocc2 : wocc = preo ++ [u, v] ++ posto := by simpa using hocc
  have hRuv : R = [u, v] := by
    refine hcoh w hw wocc hwocc pre R post preo [u, v] posto hsplit hocc2 hne (by simp) ?_ ?_
    · rw [← grel_runStr hm1 hr, hstr, hm1]
      simp [runStr_cons, runStr_nil]
    · rw [← grel_runMark hm2 hr hne', hmark, hm2]
      rfl
  subst hRuv
  -- a derivation from `[u, v]` can only replace, so the image is `[m]`
  cases hr with
  | repl h' =>
      cases h' with
      | nil => simp at hlen'
  | copy hc h' => exact hc ⟨rfl, rfl⟩


/-! ### The initial corpus is coherent -/

theorem singleton_run_det :
    ∀ (R1 : BWord), (∀ t ∈ R1, t.1.length = 1) → AllCont R1.tail →
      ∀ (R2 : BWord), (∀ t ∈ R2, t.1.length = 1) → AllCont R2.tail →
      R1 ≠ [] → R2 ≠ [] → runStr R1 = runStr R2 → runMark R1 = runMark R2 → R1 = R2 := by
  intro R1
  induction R1 with
  | nil => intro _ _ _ _ _ hne1; exact absurd rfl hne1
  | cons a T1 ih =>
      intro hlen1 hcont1 R2 hlen2 hcont2 hne1 hne2 hstr hmark
      cases R2 with
      | nil => exact absurd rfl hne2
      | cons b T2 =>
          obtain ⟨c, hc⟩ := List.length_eq_one.mp (hlen1 a (by simp))
          obtain ⟨d, hd⟩ := List.length_eq_one.mp (hlen2 b (by simp))
          rw [runStr_cons, runStr_cons, hc, hd] at hstr
          simp only [List.cons_append, List.nil_append, List.cons.injEq] at hstr
          obtain ⟨hcd, hTstr⟩ := hstr
          rw [runMark_cons, runMark_cons] at hmark
          have hab : a = b := by
            refine Prod.ext ?_ hmark
            rw [hc, hd, hcd]
          subst hab
          cases hT1 : T1 with
          | nil =>
              cases hT2 : T2 with
              | nil => rfl
              | cons e T2' =>
                  exfalso
                  rw [hT1, hT2] at hTstr
                  obtain ⟨x, hx⟩ := List.length_eq_one.mp (hlen2 e (by simp [hT2]))
                  rw [runStr_nil, runStr_cons, hx] at hTstr
                  exact List.noConfusion hTstr
          | cons e T1' =>
              cases hT2 : T2 with
              | nil =>
                  exfalso
                  rw [hT1, hT2] at hTstr
                  obtain ⟨x, hx⟩ := List.length_eq_one.mp (hlen1 e (by simp [hT1]))
                  rw [runStr_nil, runStr_cons, hx] at hTstr
                  exact List.noConfusion hTstr.symm
              | cons f T2' =>
                  have hcont1' : AllCont T1 := by
                    intro t ht; exact hcont1 t (by simpa using ht)
                  have hcont2' : AllCont T2 := by
                    intro t ht; exact hcont2 t (by simpa using ht)
                  have hT12 : T1 = T2 := by
                    refine ih (fun t ht => hlen1 t (by simp [ht])) ?_ T2
                      (fun t ht => hlen2 t (by simp [ht])) ?_ ?_ ?_ hTstr ?_
                    · intro t ht
                      exact hcont1' t (List.mem_of_mem_tail ht)
                    · intro t ht
                      exact hcont2' t (List.mem_of_mem_tail ht)
                    · rw [hT1]; simp
                    · rw [hT2]; simp
                    · rw [hT1, hT2, runMark_cons, runMark_cons,
                        hcont1' e (by rw [hT1]; simp), hcont2' f (by rw [hT2]; simp)]
                  rw [← hT1, ← hT2, hT12]

theorem run_mem {w pre R post : BWord} (hsplit : w = pre ++ R ++ post) :
    ∀ t ∈ R, t ∈ w := by
  intro t ht
  rw [hsplit]
  simp [ht]

theorem initBWord_token_len (s : List Char) : ∀ t ∈ initBWord s, t.1.length = 1 := by
  cases s with
  | nil => intro t ht; exact absurd ht (by simp [initBWord])
  | cons c cs =>
      intro t ht
      rw [show initBWord (c :: cs) = ([c], true) :: cs.map (fun d => ([d], false)) from rfl] at ht
      rcases List.mem_cons.mp ht with h | h
      · rw [h]
        rfl
      · obtain ⟨d, _, hd⟩ := List.mem_map.mp h
        rw [← hd]
        rfl

theorem initBWord_tail_cont (s : List Char) : AllCont (initBWord s).tail := by
  cases s with
  | nil => intro t ht; exact absurd ht (by simp [initBWord])
  | cons c cs =>
      intro t ht
      rw [show (initBWord (c :: cs)).tail = cs.map (fun d => ([d], false)) from rfl] at ht
      obtain ⟨d, _, hd⟩ := List.mem_map.mp ht
      rw [← hd]

theorem initial_inv (ws : List (List Char)) : BPEInv (initBState ws) := by
  refine ⟨?_, ?_, ?_, ?_, ?_⟩
  · -- coherence
    intro w1 hw1 w2 hw2 pre1 R1 post1 pre2 R2 post2 he1 he2 hne1 hne2 hstr hmark
    obtain ⟨s1, _, hs1⟩ := List.mem_map.mp hw1
    obtain ⟨s2, _, hs2⟩ := List.mem_map.mp hw2
    refine singleton_run_det R1 ?_ ?_ R2 ?_ ?_ hne1 hne2 hstr hmark
    · intro t ht
      exact initBWord_token_len s1 t (by rw [hs1]; exact run_mem he1 t ht)
    · exact run_tail_allcont he1 (by rw [← hs1]; exact initBWord_tail_cont s1)
    · intro t ht
      exact initBWord_token_len s2 t (by rw [hs2]; exact run_mem he2 t ht)
    · exact run_tail_allcont he2 (by rw [← hs2]; exact initBWord_tail_cont s2)
  · -- no multi-token runs match an entry: initial entries are single characters
    intro e he hlen
    exfalso
    have : e.1.length = 1 := by
      have hmem : e ∈ (ws.map initBWord).flatMap id := List.mem_dedup.mp he
      obtain ⟨w, hw, hew⟩ := List.mem_flatMap.mp hmem
      obtain ⟨s, _, hs⟩ := List.mem_map.mp hw
      exact initBWord_token_len s e (by rw [hs]; exact hew)
    omega
  · -- nonempty token strings
    intro w hw t ht
    obtain ⟨s, _, hs⟩ := List.mem_map.mp hw
    have := initBWord_token_len s t (by rw [hs]; exact ht)
    intro hnil
    rw [hnil] at this
    simp at this
  · -- continuation marks after the head
    intro w hw
    obtain ⟨s, _, hs⟩ := List.mem_map.mp hw
    rw [← hs]
    exact initBWord_tail_cont s
  · exact List.nodup_dedup _

/-! ### One merge step preserves the invariant and adds one fresh entry -/

theorem mergeStep_inv {st st' : BPEState} (hinv : BPEInv st)
    (h : mergeStep st = some st') :
    BPEInv st' ∧ st'.vocab.dedup.length = st.vocab.dedup.length + 1 ∧
      st.vocab.Sublist st'.vocab := by
  unfold mergeStep at h
  cases hsel : selectPair st.corpus with
  | none => rw [hsel] at h; exact absurd h (by simp)
  | some p =>
      obtain ⟨u, v⟩ := p
      rw [hsel] at h
      have hst' := (Option.some.injEq _ _).mp h
      subst hst'
      obtain ⟨wocc, hwocc, preo, posto, hocc⟩ := selectPair_occurs hsel
      have hm1 : ((u.1 ++ v.1, u.2) : BToken).1 = u.1 ++ v.1 := rfl
      have hm2 : ((u.1 ++ v.1, u.2) : BToken).2 = u.2 := rfl
      have humem : u ∈ wocc := by rw [hocc]; simp
      have hvmem : v ∈ wocc := by rw [hocc]; simp
      have hune : u.1 ≠ [] := hinv.tokne wocc hwocc u humem
      have hvne : v.1 ≠ [] := hinv.tokne wocc hwocc v hvmem
      have hmlen : 2 ≤ (u.1 ++ v.1, u.2).1.length := by
        have h1 : 0 < u.1.length := List.length_pos.mpr hune
        have h2 : 0 < v.1.length := List.length_pos.mpr hvne
        simp only [List.length_append]
        omega
      have hm_not : (u.1 ++ v.1, u.2) ∉ st.vocab := by
        intro hmem
        refine hinv.nr _ hmem hmlen wocc hwocc preo [u, v] posto (by simpa using hocc)
          (by simp) ⟨?_, ?_⟩
        · simp [runStr_cons, runStr_nil]
        · rfl
      have hvocab : addBToken st.vocab (u.1 ++ v.1, u.2) =
          st.vocab ++ [(u.1 ++ v.1, u.2)] := by
        unfold addBToken
        rw [if_neg hm_not]
      have hnodup' : (st.vocab ++ [(u.1 ++ v.1, u.2)]).Nodup := by
        rw [List.nodup_append]
        exact ⟨hinv.nodup, List.nodup_singleton _, by simpa using hm_not⟩
      refine ⟨⟨?_, ?_, ?_, ?_, ?_⟩, ?_, ?_⟩
      · exact coherent_preserved hm1 hm2 hinv.coh
      · -- no multi-token run matches any vocabulary entry
        intro e he hlen
        rw [show (⟨st.corpus.map (replacePair u v (u.1 ++ v.1, u.2)),
            addBToken st.vocab (u.1 ++ v.1, u.2)⟩ : BPEState).vocab =
          addBToken st.vocab (u.1 ++ v.1, u.2) from rfl, hvocab] at he
        rcases List.mem_append.mp he with h1 | h1
        · exact noRunOf_preserved hm1 hm2 (hinv.nr e h1 hlen)
        · have he' : e = (u.1 ++ v.1, u.2) := by simpa using h1
          rw [he']
          exact noRunOf_new hm1 hm2 hinv.coh hwocc hocc
      · -- token strings stay nonempty
        intro w' hw' t ht
        obtain ⟨w, hw, hweq⟩ := List.mem_map.mp hw'
        have hg : GRel u v (u.1 ++ v.1, u.2) w w' := by
          rw [← hweq]; exact replacePair_grel _ _ _ w
        rcases grel_tokens hg t ht with h1 | h1
        · exact hinv.tokne w hw t h1
        · rw [h1]
          simp only [ne_eq, List.append_eq_nil]
          rintro ⟨h2, _⟩
          exact hune h2
      · -- continuation marks after the head
        intro w' hw'
        obtain ⟨w, hw, hweq⟩ := List.mem_map.mp hw'
        have hg : GRel u v (u.1 ++ v.1, u.2) w w' := by
          rw [← hweq]; exact replacePair_grel _ _ _ w
        exact grel_tailcont hm2 hg (hinv.mark w hw)
      · rw [show (⟨st.corpus.map (replacePair u v (u.1 ++ v.1, u.2)),
            addBToken st.vocab (u.1 ++ v.1, u.2)⟩ : BPEState).vocab =
          addBToken st.vocab (u.1 ++ v.1, u.2) from rfl, hvocab]
        exact hnodup'
      · rw [show (⟨st.corpus.map (replacePair u v (u.1 ++ v.1, u.2)),
            addBToken st.vocab (u.1 ++ v.1, u.2)⟩ : BPEState).vocab =
          addBToken st.vocab (u.1 ++ v.1, u.2) from rfl, hvocab,
          List.dedup_eq_self.mpr hnodup', List.dedup_eq_self.mpr hinv.nodup]
        simp
      · rw [show (⟨st.corpus.map (replacePair u v (u.1 ++ v.1, u.2)),
            addBToken st.vocab (u.1 ++ v.1, u.2)⟩ : BPEState).vocab =
          addBToken st.vocab (u.1 ++ v.1, u.2) from rfl, hvocab]
        exact List.sublist_append_left _ _

theorem bpeRun_cons (target fuel : Nat) (st : BPEState) :
    ∃ rest, bpeRun target fuel st = st :: rest := by
  cases fuel with
  | zero => exact ⟨[], rfl⟩
  | succ n =>
      rw [bpeRun]
      by_cases hlt : st.vocab.length < target
      · rw [if_pos hlt]
        cases hms : mergeStep st with
        | none => exact ⟨[], rfl⟩
        | some st' => exact ⟨bpeRun target n st', rfl⟩
      · rw [if_neg hlt]
        exact ⟨[], rfl⟩

theorem bpeRun_chain (target : Nat) :
    ∀ (fuel : Nat) (st : BPEState), BPEInv st →
      ∀ p ∈ (bpeRun target fuel st).zip (bpeRun target fuel st).tail,
        p.1.vocab.Sublist p.2.vocab ∧
          p.2.vocab.dedup.length = p.1.vocab.dedup.length + 1 := by
  intro fuel
  induction fuel with
  | zero =>
      intro st hinv p hp
      exact absurd hp (by simp [bpeRun])
  | succ n ih =>
      intro st hinv p hp
      by_cases hlt : st.vocab.length < target
      · cases hms : mergeStep st with
        | none =>
            rw [show bpeRun target (n + 1) st = [st] by
              rw [bpeRun, if_pos hlt, hms]] at hp
            exact absurd hp (by simp)
        | some st' =>
            rw [show bpeRun target (n + 1) st = st :: bpeRun target n st' by
              rw [bpeRun, if_pos hlt, hms]] at hp
            obtain ⟨hinv', hlen, hsub⟩ := mergeStep_inv hinv hms
            obtain ⟨rest', hL⟩ := bpeRun_cons target n st'
            rw [hL] at hp
            rw [show ((st :: st' :: rest').zip (st :: st' :: rest').tail) =
              (st, st') :: ((st' :: rest').zip rest') from rfl] at hp
            rcases List.mem_cons.mp hp with h1 | h1
            · rw [h1]
              exact ⟨hsub, hlen⟩
            · refine ih st' hinv' p ?_
              rw [hL]
              exact h1
      · rw [show bpeRun target (n + 1) st = [st] by
          rw [bpeRun, if_neg hlt]] at hp
        exact absurd hp (by simp)

/-! ### Claim C8 — vocabulary growth during BPE construction -/

/-- C8 (spec-modelled): along any BPE vocabulary-construction run, each
merge step adds exactly one new entry — the number of distinct vocabulary
entries of the successor state equals the predecessor's plus one — and
the vocabulary never shrinks: each state's vocabulary is a sublist of its
successor's.  The crux is that the merged token is always fresh: a
coherence invariant shows that every multi-token run spelling an existing
multi-character entry has already been replaced away. -/
theorem c8_merge_grows_vocab (ws : List (List Char)) (target fuel : Nat) :
    ∀ p ∈ (bpeRun target fuel (initBState ws)).zip
        (bpeRun target fuel (initBState ws)).tail,
      p.1.vocab.Sublist p.2.vocab ∧
        p.2.vocab.dedup.length = p.1.vocab.dedup.length + 1 :=
  fun p hp => bpeRun_chain target fuel (initBState ws) (initial_inv ws) p hp

/-- Witness for C8 on the notebook's banana corpus with target size 4:
the single merge replaces the pair `(##a, ##n)`, growing the vocabulary
from `{b, ##a, ##n}` (3 distinct entries) to `{b, ##a, ##n, ##an}` (4). -/
theorem c8_merge_grows_vocab_witness :
    ((⟨[[(['b'], true), (['a'], false), (['n'], false), (['a'], false),
          (['n'], false), (['a'], false)]],
        [(['b'], true), (['n'], false), (['a'], false)]⟩ : BPEState),
      (⟨[[(['b'], true), (['a', 'n'], false), (['a', 'n'], false), (['a'], false)]],
        [(['b'], true), (['n'], false), (['a'], false), (['a', 'n'], false)]⟩ : BPEState)) ∈
        (bpeRun 4 10 (initBState [['b', 'a', 'n', 'a', 'n', 'a']])).zip
          (bpeRun 4 10 (initBState [['b', 'a', 'n', 'a', 'n', 'a']])).tail ∧
      ([(['b'], true), (['n'], false), (['a'], false)] : List BToken).Sublist
          [(['b'], true), (['n'], false), (['a'], false), (['a', 'n'], false)] ∧
        ([(['b'], true), (['n'], false), (['a'], false), (['a', 'n'], false)] :
            List BToken).dedup.length =
          ([(['b'], true), (['n'], false), (['a'], false)] : List BToken).dedup.length + 1 :=
  ⟨by decide,
    c8_merge_grows_vocab [['b', 'a', 'n', 'a', 'n', 'a']] 4 10
      ((⟨[[(['b'], true), (['a'], false), (['n'], false), (['a'], false),
            (['n'], false), (['a'], false)]],
          [(['b'], true), (['n'], false), (['a'], false)]⟩ : BPEState),
        (⟨[[(['b'], true), (['a', 'n'], false), (['a', 'n'], false), (['a'], false)]],
          [(['b'], true), (['n'], false), (['a'], false), (['a', 'n'], false)]⟩ : BPEState))
      (by decide)⟩

/-! ### Frame lemmas for the store model -/

theorem deref_set_ne (σ : Store) (a b : Nat) (x : List PVal) (h : b ≠ a) :
    deref (σ.set a x) b = deref σ b := by
  unfold deref
  rw [List.getD_eq_getElem?_getD, List.getD_eq_getElem?_getD,
    List.getElem?_set_ne (Ne.symm h)]

theorem deref_append_lt (σ σ' : Store) (a : Nat) (h : a < σ.length) :
    deref (σ ++ σ') a = deref σ a :=
  getD_append_of_lt σ σ' [] a h

theorem storeExt_refl (σ : Store) : StoreExt σ σ :=
  ⟨le_rfl, fun _ _ => rfl⟩

theorem storeExt_append (σ₀ σ σ' : Store) (h : StoreExt σ₀ σ) :
    StoreExt σ₀ (σ ++ σ') := by
  obtain ⟨hl, hd⟩ := h
  refine ⟨by simp only [List.length_append]; omega, fun a ha => ?_⟩
  rw [deref_append_lt _ _ a (by omega), hd a ha]

theorem deref_pushAt_ne (σ : Store) (a b : Nat) (x : PVal) (h : b ≠ a) :
    deref (pushAt σ a x) b = deref σ b :=
  deref_set_ne σ a b _ h

theorem deref_extendAt_ne (σ : Store) (a b : Nat) (xs : List PVal) (h : b ≠ a) :
    deref (extendAt σ a xs) b = deref σ b :=
  deref_set_ne σ a b _ h

theorem storeExt_set_ge (σ₀ σ : Store) (a : Nat) (x : List PVal)
    (hge : σ₀.length ≤ a) (h : StoreExt σ₀ σ) : StoreExt σ₀ (σ.set a x) := by
  refine ⟨by rw [List.length_set]; exact h.1, fun b hb => ?_⟩
  rw [deref_set_ne σ a b x (by omega), h.2 b hb]

theorem storeExt_pushAt (σ₀ σ : Store) (a : Nat) (x : PVal)
    (hge : σ₀.length ≤ a) (h : StoreExt σ₀ σ) : StoreExt σ₀ (pushAt σ a x) :=
  storeExt_set_ge σ₀ σ a _ hge h

theorem storeExt_extendAt (σ₀ σ : Store) (a : Nat) (xs : List PVal)
    (hge : σ₀.length ≤ a) (h : StoreExt σ₀ σ) : StoreExt σ₀ (extendAt σ a xs) :=
  storeExt_set_ge σ₀ σ a _ hge h

theorem innerLoopS_frame (no_tag tag : Nat) :
    ∀ (pieces : List Nat) (i aI aM aT : Nat) (σ : Store) (b : Nat),
      b ≠ aI → b ≠ aM → b ≠ aT →
      deref (innerLoopS no_tag tag pieces i aI aM aT σ) b = deref σ b := by
  intro pieces
  induction pieces with
  | nil => intro i aI aM aT σ b h1 h2 h3; rfl
  | cons index rest ih =>
      intro i aI aM aT σ b h1 h2 h3
      rw [innerLoopS]
      by_cases hi : i = 0
      · rw [if_pos hi, ih _ _ _ _ _ b h1 h2 h3, deref_pushAt_ne _ _ _ _ h3,
          deref_pushAt_ne _ _ _ _ h2, deref_pushAt_ne _ _ _ _ h1]
      · rw [if_neg hi, ih _ _ _ _ _ b h1 h2 h3, deref_pushAt_ne _ _ _ _ h3,
          deref_pushAt_ne _ _ _ _ h2, deref_pushAt_ne _ _ _ _ h1]

theorem innerLoopS_length (no_tag tag : Nat) :
    ∀ (pieces : List Nat) (i aI aM aT : Nat) (σ : Store),
      (innerLoopS no_tag tag pieces i aI aM aT σ).length = σ.length := by
  intro pieces
  induction pieces with
  | nil => intro i aI aM aT σ; rfl
  | cons index rest ih =>
      intro i aI aM aT σ
      rw [innerLoopS]
      by_cases hi : i = 0
      · rw [if_pos hi, ih]
        simp [pushAt, List.length_set]
      · rw [if_neg hi, ih]
        simp [pushAt, List.length_set]

theorem wordLoopS_frame (tk : Tokeniser) (no_tag : Nat) :
    ∀ (pairs : List (Nat × String)) (aI aM aT : Nat) (σ : Store) (b : Nat),
      b ≠ aI → b ≠ aM → b ≠ aT →
      deref (wordLoopS tk no_tag pairs aI aM aT σ) b = deref σ b := by
  intro pairs
  induction pairs with
  | nil => intro aI aM aT σ b h1 h2 h3; rfl
  | cons p rest ih =>
      intro aI aM aT σ b h1 h2 h3
      obtain ⟨tag, word⟩ := p
      rw [wordLoopS, ih _ _ _ _ b h1 h2 h3,
        innerLoopS_frame no_tag tag _ _ _ _ _ _ b h1 h2 h3]

theorem wordLoopS_length (tk : Tokeniser) (no_tag : Nat) :
    ∀ (pairs : List (Nat × String)) (aI aM aT : Nat) (σ : Store),
      (wordLoopS tk no_tag pairs aI aM aT σ).length = σ.length := by
  intro pairs
  induction pairs with
  | nil => intro aI aM aT σ; rfl
  | cons p rest ih =>
      intro aI aM aT σ
      obtain ⟨tag, word⟩ := p
      rw [wordLoopS, ih, innerLoopS_length]

theorem wordLoopS_ext (tk : Tokeniser) (no_tag : Nat)
    (pairs : List (Nat × String)) (aI aM aT : Nat) (σ σ₀ : Store)
    (h1 : σ₀.length ≤ aI) (h2 : σ₀.length ≤ aM) (h3 : σ₀.length ≤ aT)
    (h : StoreExt σ₀ σ) : StoreExt σ₀ (wordLoopS tk no_tag pairs aI aM aT σ) := by
  refine ⟨by rw [wordLoopS_length]; exact h.1, fun b hb => ?_⟩
  rw [wordLoopS_frame tk no_tag pairs aI aM aT σ b (by omega) (by omega) (by omega),
    h.2 b hb]

theorem deref_set_self (σ : Store) (a : Nat) (x : List PVal) (h : a < σ.length) :
    deref (σ.set a x) a = x := by
  unfold deref
  rw [List.getD_eq_getElem?_getD, List.getElem?_set_self h]
  rfl

theorem deref_pushAt_self (σ : Store) (a : Nat) (x : PVal) (h : a < σ.length) :
    deref (pushAt σ a x) a = deref σ a ++ [x] :=
  deref_set_self σ a _ h

theorem pushAt_length (σ : Store) (a : Nat) (x : PVal) :
    (pushAt σ a x).length = σ.length :=
  List.length_set σ a _

theorem extendAt_length (σ : Store) (a : Nat) (xs : List PVal) :
    (extendAt σ a xs).length = σ.length :=
  List.length_set σ a _

theorem sentenceBodyS_facts (tk : Tokeniser) (nt : Nat) (aw ata aTI aTA aTM : Nat)
    (σ σ₀ : Store) (hext : StoreExt σ₀ σ)
    (h1 : σ₀.length ≤ aTI) (h2 : σ₀.length ≤ aTA) (h3 : σ₀.length ≤ aTM)
    (hlt1 : aTI < σ.length) (hlt2 : aTA < σ.length) (hlt3 : aTM < σ.length)
    (hne1 : aTI ≠ aTA) (hne2 : aTI ≠ aTM) (hne3 : aTA ≠ aTM) :
    StoreExt σ₀ (sentenceBodyS tk nt aw ata aTI aTA aTM σ) ∧
      (sentenceBodyS tk nt aw ata aTI aTA aTM σ).length = σ.length + 3 ∧
      deref (sentenceBodyS tk nt aw ata aTI aTA aTM σ) aTI =
        deref σ aTI ++ [PVal.r σ.length] ∧
      deref (sentenceBodyS tk nt aw ata aTI aTA aTM σ) aTA =
        deref σ aTA ++ [PVal.r (σ.length + 2)] ∧
      deref (sentenceBodyS tk nt aw ata aTI aTA aTM σ) aTM =
        deref σ aTM ++ [PVal.r (σ.length + 1)] := by
  have hbase : σ₀.length ≤ σ.length := hext.1
  unfold sentenceBodyS
  -- the store after the three allocations
  have hext3 : StoreExt σ₀ (σ ++ [[PVal.n tk.cls_token_id], [PVal.b false], [PVal.n nt]]) :=
    storeExt_append σ₀ σ _ hext
  have hlen3 : (σ ++ [[PVal.n tk.cls_token_id], [PVal.b false],
      [PVal.n nt]]).length = σ.length + 3 := by simp
  -- the store after the word loop
  have hext4 := wordLoopS_ext tk nt
    ((decodeNats (deref (σ ++ [[PVal.n tk.cls_token_id], [PVal.b false],
        [PVal.n nt]]) ata)).zip
      (decodeStrs (deref (σ ++ [[PVal.n tk.cls_token_id], [PVal.b false],
        [PVal.n nt]]) aw)))
    σ.length (σ.length + 1) (σ.length + 2) _ σ₀ hbase (by omega) (by omega) hext3
  have hlen4 : (wordLoopS tk nt
      ((decodeNats (deref (σ ++ [[PVal.n tk.cls_token_id], [PVal.b false],
          [PVal.n nt]]) ata)).zip
        (decodeStrs (deref (σ ++ [[PVal.n tk.cls_token_id], [PVal.b false],
          [PVal.n nt]]) aw)))
      σ.length (σ.length + 1) (σ.length + 2)
      (σ ++ [[PVal.n tk.cls_token_id], [PVal.b false], [PVal.n nt]])).length =
        σ.length + 3 := by
    rw [wordLoopS_length]
    exact hlen3
  refine ⟨?_, ?_, ?_, ?_, ?_⟩
  · refine storeExt_pushAt σ₀ _ aTM _ (by omega) ?_
    refine storeExt_pushAt σ₀ _ aTA _ (by omega) ?_
    refine storeExt_pushAt σ₀ _ aTI _ (by omega) ?_
    refine storeExt_pushAt σ₀ _ _ _ (by omega) ?_
    refine storeExt_pushAt σ₀ _ _ _ (by omega) ?_
    exact storeExt_pushAt σ₀ _ _ _ (by omega) hext4
  · simp only [pushAt_length]
    exact hlen4
  · rw [deref_pushAt_ne _ _ _ _ hne2, deref_pushAt_ne _ _ _ _ hne1,
      deref_pushAt_self _ _ _ (by simp only [pushAt_length]; omega),
      deref_pushAt_ne _ _ _ _ (by omega), deref_pushAt_ne _ _ _ _ (by omega),
      deref_pushAt_ne _ _ _ _ (by omega),
      wordLoopS_frame tk nt _ _ _ _ _ aTI (by omega) (by omega) (by omega),
      deref_append_lt _ _ _ hlt1]
  · rw [deref_pushAt_ne _ _ _ _ hne3,
      deref_pushAt_self _ _ _ (by simp only [pushAt_length]; omega),
      deref_pushAt_ne _ _ _ _ (Ne.symm hne1),
      deref_pushAt_ne _ _ _ _ (by omega), deref_pushAt_ne _ _ _ _ (by omega),
      deref_pushAt_ne _ _ _ _ (by omega),
      wordLoopS_frame tk nt _ _ _ _ _ aTA (by omega) (by omega) (by omega),
      deref_append_lt _ _ _ hlt2]
  · rw [deref_pushAt_self _ _ _ (by simp only [pushAt_length]; omega),
      deref_pushAt_ne _ _ _ _ (Ne.symm hne3), deref_pushAt_ne _ _ _ _ (Ne.symm hne2),
      deref_pushAt_ne _ _ _ _ (by omega), deref_pushAt_ne _ _ _ _ (by omega),
      deref_pushAt_ne _ _ _ _ (by omega),
      wordLoopS_frame tk nt _ _ _ _ _ aTM (by omega) (by omega) (by omega),
      deref_append_lt _ _ _ hlt3]

theorem sentenceLoopS_ext (tk : Tokeniser) (nt : Nat) :
    ∀ (sents : List (Nat × Nat)) (aTI aTA aTM : Nat) (σ σ₀ : Store),
      StoreExt σ₀ σ →
      σ₀.length ≤ aTI → σ₀.length ≤ aTA → σ₀.length ≤ aTM →
      aTI < σ.length → aTA < σ.length → aTM < σ.length →
      aTI ≠ aTA → aTI ≠ aTM → aTA ≠ aTM →
      RefsGE σ₀.length (deref σ aTI) →
      RefsGE σ₀.length (deref σ aTA) →
      RefsGE σ₀.length (deref σ aTM) →
      StoreExt σ₀ (sentenceLoopS tk nt sents aTI aTA aTM σ) ∧
        σ.length ≤ (sentenceLoopS tk nt sents aTI aTA aTM σ).length ∧
        RefsGE σ₀.length (deref (sentenceLoopS tk nt sents aTI aTA aTM σ) aTI) ∧
        RefsGE σ₀.length (deref (sentenceLoopS tk nt sents aTI aTA aTM σ) aTA) ∧
        RefsGE σ₀.length (deref (sentenceLoopS tk nt sents aTI aTA aTM σ) aTM) := by
  intro sents
  induction sents with
  | nil =>
      intro aTI aTA aTM σ σ₀ hext h1 h2 h3 _ _ _ _ _ _ hri hra hrm
      exact ⟨hext, le_rfl, hri, hra, hrm⟩
  | cons sent rest ih =>
      intro aTI aTA aTM σ σ₀ hext h1 h2 h3 hlt1 hlt2 hlt3 hne1 hne2 hne3 hri hra hrm
      obtain ⟨aw, ata⟩ := sent
      rw [sentenceLoopS]
      obtain ⟨hextB, hlenB, hdI, hdA, hdM⟩ :=
        sentenceBodyS_facts tk nt aw ata aTI aTA aTM σ σ₀ hext h1 h2 h3
          hlt1 hlt2 hlt3 hne1 hne2 hne3
      have hbase : σ₀.length ≤ σ.length := hext.1
      obtain ⟨e1, e2, e3, e4, e5⟩ := ih aTI aTA aTM
        (sentenceBodyS tk nt aw ata aTI aTA aTM σ) σ₀ hextB h1 h2 h3
        (by omega) (by omega) (by omega) hne1 hne2 hne3
        (by
          rw [hdI]
          intro c hc
          rcases List.mem_append.mp hc with h | h
          · exact hri c h
          · have : PVal.r c = PVal.r σ.length := by simpa using h
            injection this with hce
            omega)
        (by
          rw [hdA]
          intro c hc
          rcases List.mem_append.mp hc with h | h
          · exact hra c h
          · have : PVal.r c = PVal.r (σ.length + 2) := by simpa using h
            injection this with hce
            omega)
        (by
          rw [hdM]
          intro c hc
          rcases List.mem_append.mp hc with h | h
          · exact hrm c h
          · have : PVal.r c = PVal.r (σ.length + 1) := by simpa using h
            injection this with hce
            omega)
      exact ⟨e1, by omega, e3, e4, e5⟩

theorem padBodyS_ext (tk : Tokeniser) (nt max_len aI aM aT aTTM : Nat)
    (σ σ₀ : Store) (hext : StoreExt σ₀ σ)
    (haI : σ₀.length ≤ aI) (haM : σ₀.length ≤ aM) (haT : σ₀.length ≤ aT)
    (haTTM : σ₀.length ≤ aTTM) :
    StoreExt σ₀ (padBodyS tk nt max_len aI aM aT aTTM σ) ∧
      σ.length ≤ (padBodyS tk nt max_len aI aM aT aTTM σ).length := by
  unfold padBodyS
  constructor
  · refine storeExt_extendAt σ₀ _ aT _ haT ?_
    refine storeExt_extendAt σ₀ _ aM _ haM ?_
    refine storeExt_extendAt σ₀ _ aI _ haI ?_
    refine storeExt_pushAt σ₀ _ aTTM _ haTTM ?_
    exact storeExt_append σ₀ σ _ hext
  · simp only [extendAt_length, pushAt_length, List.length_append, List.length_cons,
      List.length_nil]
    omega

theorem padLoopS_ext (tk : Tokeniser) (nt max_len : Nat) :
    ∀ (rows : List (Nat × Nat × Nat)) (aTTM : Nat) (σ σ₀ : Store),
      StoreExt σ₀ σ → σ₀.length ≤ aTTM →
      (∀ rw ∈ rows, σ₀.length ≤ rw.1 ∧ σ₀.length ≤ rw.2.1 ∧ σ₀.length ≤ rw.2.2) →
      StoreExt σ₀ (padLoopS tk nt max_len rows aTTM σ) := by
  intro rows
  induction rows with
  | nil => intro aTTM σ σ₀ hext _ _; exact hext
  | cons row rest ih =>
      intro aTTM σ σ₀ hext hTTM hrows
      obtain ⟨aI, aM, aT⟩ := row
      rw [padLoopS]
      have hrow := hrows (aI, aM, aT) (by simp)
      obtain ⟨hextB, _⟩ := padBodyS_ext tk nt max_len aI aM aT aTTM σ σ₀ hext
        hrow.1 hrow.2.1 hrow.2.2 hTTM
      exact ih aTTM _ σ₀ hextB hTTM fun rw hrw => hrows rw (by simp [hrw])

theorem mem_derefRefs {σ : Store} {a c : Nat} (h : c ∈ derefRefs σ a) :
    PVal.r c ∈ deref σ a := by
  obtain ⟨x, hx, hxc⟩ := List.mem_filterMap.mp h
  cases x with
  | n k => simp at hxc
  | b bb => simp at hxc
  | s ss => simp at hxc
  | r c2 =>
      simp only [Option.some.injEq] at hxc
      rw [← hxc]
      exact hx

theorem derefRefs_append_lt (σ σ' : Store) (x : Nat) (h : x < σ.length) :
    derefRefs (σ ++ σ') x = derefRefs σ x := by
  unfold derefRefs
  rw [deref_append_lt _ _ _ h]

/-! ### Claim C10 — the aligner leaves its inputs unchanged -/

/-- C10: in the store model, running `get_aligned_tokens_and_tags` on any
initial store leaves every pre-existing list cell unchanged — in
particular the batch word-sequence list, the tag-sequence list and every
per-sentence sequence they reference hold the same elements after the
call as before; all `append`/`extend` writes hit only cells the call
allocated itself. -/
theorem c10_inputs_unchanged (tk : Tokeniser) (aToks aTags no_tag : Nat)
    (σ₀ : Store) (a : Nat) (ha : a < σ₀.length) :
    deref ((get_alignedS tk aToks aTags no_tag σ₀).1) a = deref σ₀ a := by
  have hext3 : StoreExt σ₀ (σ₀ ++ [[], [], []]) := storeExt_append σ₀ σ₀ _ (storeExt_refl σ₀)
  have hd0 : deref (σ₀ ++ [[], [], []]) σ₀.length = [] := by
    unfold deref
    rw [getD_append_of_ge _ _ _ _ le_rfl]
    simp
  have hd1 : deref (σ₀ ++ [[], [], []]) (σ₀.length + 1) = [] := by
    unfold deref
    rw [getD_append_of_ge _ _ _ _ (by omega)]
    have : σ₀.length + 1 - σ₀.length = 1 := by omega
    rw [this]
    rfl
  have hd2 : deref (σ₀ ++ [[], [], []]) (σ₀.length + 2) = [] := by
    unfold deref
    rw [getD_append_of_ge _ _ _ _ (by omega)]
    have : σ₀.length + 2 - σ₀.length = 2 := by omega
    rw [this]
    rfl
  have hmid := sentenceLoopS_ext tk no_tag
    ((derefRefs (σ₀ ++ [[], [], []]) aToks).zip (derefRefs (σ₀ ++ [[], [], []]) aTags))
    σ₀.length (σ₀.length + 1) (σ₀.length + 2) (σ₀ ++ [[], [], []]) σ₀ hext3
    le_rfl (by omega) (by omega)
    (by simp) (by simp) (by simp)
    (by omega) (by omega) (by omega)
    (by rw [hd0]; intro c hc; exact absurd hc (by simp))
    (by rw [hd1]; intro c hc; exact absurd hc (by simp))
    (by rw [hd2]; intro c hc; exact absurd hc (by simp))
  rw [show sentenceLoopS tk no_tag
      ((derefRefs (σ₀ ++ [[], [], []]) aToks).zip (derefRefs (σ₀ ++ [[], [], []]) aTags))
      σ₀.length (σ₀.length + 1) (σ₀.length + 2) (σ₀ ++ [[], [], []]) =
    alignStoreMid tk no_tag aToks aTags σ₀ from rfl] at hmid
  obtain ⟨hmidExt, hmidLen, hRI, hRA, hRM⟩ := hmid
  have hmidLen' : σ₀.length + 3 ≤ (alignStoreMid tk no_tag aToks aTags σ₀).length := by
    simp only [List.length_append] at hmidLen
    simpa using hmidLen
  cases hm : derefRefs (alignStoreMid tk no_tag aToks aTags σ₀) σ₀.length with
  | nil =>
      rw [show (get_alignedS tk aToks aTags no_tag σ₀).1 =
          alignStoreMid tk no_tag aToks aTags σ₀ by
        unfold get_alignedS
        rw [hm]]
      exact hmidExt.2 a ha
  | cons x xs =>
      have hres : (get_alignedS tk aToks aTags no_tag σ₀).1 =
          padLoopS tk no_tag
            (maxLen ((derefRefs (alignStoreMid tk no_tag aToks aTags σ₀) σ₀.length).map
              fun b => (deref (alignStoreMid tk no_tag aToks aTags σ₀) b).length))
            ((derefRefs (alignStoreMid tk no_tag aToks aTags σ₀ ++ [[]]) σ₀.length).zip
              ((derefRefs (alignStoreMid tk no_tag aToks aTags σ₀ ++ [[]])
                  (σ₀.length + 2)).zip
                (derefRefs (alignStoreMid tk no_tag aToks aTags σ₀ ++ [[]])
                  (σ₀.length + 1))))
            (alignStoreMid tk no_tag aToks aTags σ₀).length
            (alignStoreMid tk no_tag aToks aTags σ₀ ++ [[]]) := by
        unfold get_alignedS
        rw [hm]
      rw [hres]
      refine (padLoopS_ext tk no_tag _ _ _ _ σ₀
        (storeExt_append σ₀ _ _ hmidExt) (by omega) ?_).2 a ha
      intro rw hrw
      have h1 := (List.of_mem_zip hrw).1
      have h23 := (List.of_mem_zip hrw).2
      have h2 := (List.of_mem_zip h23).1
      have h3 := (List.of_mem_zip h23).2
      rw [derefRefs_append_lt _ _ _ (by omega)] at h1 h2 h3
      refine ⟨hRI rw.1 (mem_derefRefs h1), hRM rw.2.1 (mem_derefRefs h2),
        hRA rw.2.2 (mem_derefRefs h3)⟩

/-- Witness for C10 on a concrete store: a batch of one sentence
`["I", "like"]` with tags `[1, 4]`; after the call the word list at
address 0 and the tag list at address 1 still hold their elements. -/
theorem c10_inputs_unchanged_witness :
    deref ((get_alignedS demoTok 2 3 0
        [[.s "I", .s "like"], [.n 1, .n 4], [.r 0], [.r 1]]).1) 0 =
      [PVal.s "I", PVal.s "like"] ∧
    deref ((get_alignedS demoTok 2 3 0
        [[.s "I", .s "like"], [.n 1, .n 4], [.r 0], [.r 1]]).1) 1 =
      [PVal.n 1, PVal.n 4] :=
  ⟨(c10_inputs_unchanged demoTok 2 3 0
      [[.s "I", .s "like"], [.n 1, .n 4], [.r 0], [.r 1]] 0 (by decide)).trans (by decide),
    (c10_inputs_unchanged demoTok 2 3 0
      [[.s "I", .s "like"], [.n 1, .n 4], [.r 0], [.r 1]] 1 (by decide)).trans (by decide)⟩
